import Mathlib

/-!
Verification of the configuration pipeline of Xero-Map-Generator
(src/xero_map_gen/config.py).

The development shallowly embeds the configuration data model and the
operations of config.py, together with the parts of its libraries that the
code relies on: the traitlets Config tree (a string-keyed dict whose values
are either plain values or nested Config sections, with the recursive
Config.merge), the traitlets KVArgParseConfigLoader machinery that the
repository subclasses, and the posixpath functions used by
expand_relative_path (expandvars, normpath, expanduser, join, abspath,
splitext).

Python strings are modelled as Lean String (or List Char for the character
level path algorithms), Python dicts as association lists with
replace-first-or-append update, which matches insertion-ordered dict
semantics for every lookup.
-/

/-! ## The traitlets Config tree

A traitlets Config is a dict from string keys to values; a value is either a
plain (leaf) value or a nested Config section.  We use a mutual inductive so
that all functions below are structural recursions (hence reducible by the
kernel).  Leaf payloads are kept as strings: every leaf this program stores
is a string, a marker object, or a number whose decimal rendering we store.
-/

mutual
inductive CVal where
  | leaf (s : String)
  | sec (m : CEntries)

inductive CEntries where
  | nil
  | cons (k : String) (v : CVal) (rest : CEntries)
end

mutual
def CVal.decEq : (a b : CVal) → Decidable (a = b)
  | .leaf s, .leaf t =>
    match String.decEq s t with
    | isTrue h => isTrue (by rw [h])
    | isFalse h => isFalse (fun e => h (by cases e; rfl))
  | .leaf _, .sec _ => isFalse (by intro h; exact CVal.noConfusion h)
  | .sec _, .leaf _ => isFalse (by intro h; exact CVal.noConfusion h)
  | .sec m, .sec n =>
    match CEntries.decEq m n with
    | isTrue h => isTrue (by rw [h])
    | isFalse h => isFalse (fun e => h (by cases e; rfl))

def CEntries.decEq : (a b : CEntries) → Decidable (a = b)
  | .nil, .nil => isTrue rfl
  | .nil, .cons _ _ _ => isFalse (by intro h; exact CEntries.noConfusion h)
  | .cons _ _ _, .nil => isFalse (by intro h; exact CEntries.noConfusion h)
  | .cons k v r, .cons k2 v2 r2 =>
    match String.decEq k k2 with
    | isFalse h => isFalse (fun e => h (by cases e; rfl))
    | isTrue h1 =>
      match CVal.decEq v v2 with
      | isFalse h => isFalse (fun e => h (by cases e; rfl))
      | isTrue h2 =>
        match CEntries.decEq r r2 with
        | isFalse h => isFalse (fun e => h (by cases e; rfl))
        | isTrue h3 => isTrue (by rw [h1, h2, h3])
end

instance : DecidableEq CVal := CVal.decEq

instance : DecidableEq CEntries := CEntries.decEq

/-- Dict lookup: the value stored under a key (first occurrence; our
construction keeps keys unique, matching Python dicts). -/
def lookupE : CEntries → String → Option CVal
  | .nil, _ => none
  | .cons k v r, key => if k = key then some v else lookupE r key

/-- Python membership test key in dict. -/
def hasKeyE (e : CEntries) (key : String) : Bool :=
  (lookupE e key).isSome

/-- Dict assignment d[key] = v: replace the value at the first occurrence of
the key, or append a fresh binding, exactly dict insertion-order
semantics. -/
def setE : CEntries → String → CVal → CEntries
  | .nil, key, v => .cons key v .nil
  | .cons k w r, key, v =>
    if k = key then .cons k v r else .cons k w (setE r key v)

mutual
/-- traitlets Config.merge value step: when both the accumulated value and
the incoming value are Config sections they are merged recursively,
otherwise the incoming value replaces the old one. -/
def mergeVal : CVal → CVal → CVal
  | .sec a, .sec b => .sec (mergeList a b)
  | .leaf _, v => v
  | .sec _, .leaf s => .leaf s

/-- traitlets Config.merge: for each key of the incoming dict, recursively
merge when both sides hold sections, otherwise let the incoming value win;
keys absent from the accumulator are added. -/
def mergeList : CEntries → CEntries → CEntries
  | a, .nil => a
  | a, .cons k v rest =>
    let newv :=
      match lookupE a k with
      | some w => mergeVal w v
      | none => v
    mergeList (setE a k newv) rest
end

mutual
/-- Well-formedness of a config value: every dict in the tree has pairwise
distinct keys.  Real Python dicts satisfy this by construction. -/
def wfVal : CVal → Bool
  | .leaf _ => true
  | .sec m => wfEntries m

/-- Well-formedness of a config dict (keys unique at every level). -/
def wfEntries : CEntries → Bool
  | .nil => true
  | .cons k v r => !(hasKeyE r k) && wfVal v && wfEntries r
end

/-- Distinctness of the top-level keys only. -/
def keysNodupE : CEntries → Bool
  | .nil => true
  | .cons k _ r => !(hasKeyE r k) && keysNodupE r

/-- Whether a plain (leaf) value sits at a top-level key. -/
def leafAt (c : CEntries) (s : String) : Bool :=
  match lookupE c s with
  | some (.leaf _) => true
  | _ => false

/-- Every top-level value of the dict is a Config section, as is the case
for every layer produced by the argparse and file loaders (their keys are
all of the form Section.trait). -/
def topSections : CEntries → Bool
  | .nil => true
  | .cons _ v r =>
    (match v with
     | .sec _ => true
     | .leaf _ => false) && topSections r

/-- Reading config.Section.field, as config.Section.get(field) does: none
when the section is missing, not a section, or lacks the field. -/
def get2 (c : CEntries) (s f : String) : Option CVal :=
  match lookupE c s with
  | some (.sec m) => lookupE m f
  | _ => none

/-- Python test field in config.Section (for a Section that is an actual
Config; a leaf standing at a section name never arises in a completed run
and is treated as not containing the field). -/
def contains2 (c : CEntries) (s f : String) : Bool :=
  match lookupE c s with
  | some (.sec m) => (lookupE m f).isSome
  | _ => false

/-- Assignment config.Section.field = v.  traitlets auto-creates the
section when absent; when the stored section value is a leaf, attribute
assignment on it fails in Python (AttributeError), modelled as none. -/
def set2 (c : CEntries) (s f : String) (v : CVal) : Option CEntries :=
  match lookupE c s with
  | some (.sec m) => some (setE c s (.sec (setE m f v)))
  | some (.leaf _) => none
  | none => some (setE c s (.sec (.cons f v .nil)))

/-- Python truthiness of the result of config.Section.get(field): None and
the empty string are falsey, a nonempty string is truthy, and a Config
section is truthy exactly when nonempty. -/
def pyTruthy : Option CVal → Bool
  | none => false
  | some (.leaf s) => !(s == "")
  | some (.sec m) =>
    match m with
    | .nil => false
    | .cons _ _ _ => true

/-- validate_config from config.py: raises a ConfigException naming the
Xero API requirement unless both XeroApiConfig.rsa_key_path and
XeroApiConfig.consumer_key are truthy in the merged config.  The function
only reads the config, so the embedding takes it by value and returns no
new config. -/
def validate_config (config : CEntries) : Except String Unit :=
  if pyTruthy (get2 config "XeroApiConfig" "rsa_key_path")
      && pyTruthy (get2 config "XeroApiConfig" "consumer_key") then
    Except.ok ()
  else
    Except.error "To connect to the Xero API, you must either specify a Xero API consumer key or a config file containing such a key"

/-! ## RichConfig and load_config -/

/-- Generic assoc-list dict assignment for non-config dicts. -/
def setKeyL {α : Type} : List (String × α) → String → α → List (String × α)
  | [], key, v => [(key, v)]
  | (k, w) :: r, key, v =>
    if k = key then (k, v) :: r else (k, w) :: setKeyL r key v

/-- Generic assoc-list dict lookup. -/
def lookupL {α : Type} : List (String × α) → String → Option α
  | [], _ => none
  | (k, w) :: r, key => if k = key then some w else lookupL r key

/-- Generic assoc-list membership. -/
def hasKeyL {α : Type} (l : List (String × α)) (key : String) : Bool :=
  (lookupL l key).isSome

/-- RichConfig from config.py: a Config plus the dict of merged sources
kept for provenance. -/
structure RichConfig where
  entries : CEntries
  sources : List (String × CEntries)
deriving DecidableEq

/-- RichConfig.merge_source: record the layer under its provenance name and
merge it into the accumulated config. -/
def RichConfig.merge_source (rc : RichConfig) (name : String) (other : CEntries) : RichConfig :=
  { entries := mergeList rc.entries other
    sources := setKeyL rc.sources name other }

/-- The argparse_loader attribute that load_cli_config stores on the
accumulating config (config.argparse_loader = get_argparse_loader()); its
payload is an opaque loader object, irrelevant to the merged values. -/
def argparseLoaderMarker : CVal := .leaf "RichKVArgParseConfigLoader"

/-- The accumulating config right after the proto merge and the
argparse_loader assignment done inside load_cli_config, before the
pull-forward of CLI fields. -/
def protoPhase (proto : CEntries) : CEntries :=
  setE (mergeList .nil proto) "argparse_loader" argparseLoaderMarker

/-- One conditional pull-forward step of load_config: when the parsed cli
layer carries the field, copy its value into the accumulating config. -/
def pullForwardField (cli : CEntries) (s f : String) (acc : CEntries) : Option CEntries :=
  if contains2 cli s f then set2 acc s f ((get2 cli s f).getD (.leaf "")) else some acc

/-- The pull-forward block of load_config: copy BaseConfig.config_path,
BaseConfig.config_dir and LogConfig.stream_log_level from the cli layer
into the accumulating config when the cli layer has them. -/
def pullForward (entries cli : CEntries) : Option CEntries := do
  let e1 ← pullForwardField cli "BaseConfig" "config_path" entries
  let e2 ← pullForwardField cli "BaseConfig" "config_dir" e1
  pullForwardField cli "LogConfig" "stream_log_level" e2

/-- load_config from config.py.  The parsed cli layer and the file loader
are taken as parameters: load_cli_config produces the cli layer from argv
before any of the steps modelled here, and load_file_config is invoked on
the accumulating config after the pull-forward (so it sees the cli-supplied
config_path and config_dir).  A run that raises (attribute error on a
non-section value, or a validation failure, which config_runtime_exception
turns into a process exit) is modelled as none. -/
def load_config (proto cli : CEntries) (fileLoader : CEntries → CEntries) : Option RichConfig :=
  match pullForward (protoPhase proto) cli with
  | none => none
  | some pulled =>
    let file := fileLoader pulled
    let afterFile := RichConfig.merge_source { entries := pulled, sources := [("proto", proto)] } "file" file
    let afterCli := RichConfig.merge_source afterFile "cli" cli
    match validate_config afterCli.entries with
    | .ok _ => some afterCli
    | .error _ => none

/-! ## posixpath, modelled at the character level

Characters of a Python str are modelled as List Char.  The environment,
working directory and password database that os.path reads are gathered in
OsEnv so the functions stay pure.
-/

/-- Process state read by the os.path functions: os.environ, os.getcwd(),
the home directory that pwd.getpwuid would report when HOME is unset, and
the pwd user database used for tilde-user expansion. -/
structure OsEnv where
  env : List (String × String)
  cwd : String
  uidHome : String
  pwdDb : List (String × String)
deriving DecidableEq

/-- Lookup of a character-level name in a string-keyed table (os.environ or
the pwd database). -/
def lookupCharsEnv : List (String × String) → List Char → Option (List Char)
  | [], _ => none
  | (k, v) :: r, name => if k.data = name then some v.data else lookupCharsEnv r name

/-- ASCII word character, the re.ASCII meaning of a w character class used
by the posixpath.expandvars pattern. -/
def isWordChar (c : Char) : Bool :=
  c.isAlphanum || c == '_'

/-- posixpath.expandvars: scan left to right, substituting environment
values for dollar-variable and dollar-brace references; unknown variables
are kept literally; substituted values are not rescanned (the scan resumes
after the inserted value).  The fuel argument bounds the recursion; every
step consumes at least one input character, so fuel equal to the input
length always suffices. -/
def expandvarsFuel (env : List (String × String)) : Nat → List Char → List Char
  | 0, p => p
  | _ + 1, [] => []
  | fuel + 1, c :: rest =>
    if c = '$' then
      match rest with
      | '{' :: r2 =>
        let body := r2.takeWhile (fun d => !(d == '}'))
        let after := r2.dropWhile (fun d => !(d == '}'))
        match after with
        | '}' :: tail =>
          (match lookupCharsEnv env body with
           | some v => v ++ expandvarsFuel env fuel tail
           | none => '$' :: '{' :: (body ++ '}' :: expandvarsFuel env fuel tail))
        | _ => '$' :: expandvarsFuel env fuel rest
      | _ =>
        let word := rest.takeWhile isWordChar
        if word = [] then '$' :: expandvarsFuel env fuel rest
        else
          match lookupCharsEnv env word with
          | some v => v ++ expandvarsFuel env fuel (rest.drop word.length)
          | none => '$' :: (word ++ expandvarsFuel env fuel (rest.drop word.length))
    else c :: expandvarsFuel env fuel rest

/-- posixpath.expandvars with enough fuel for its input. -/
def expandvars (env : List (String × String)) (p : List Char) : List Char :=
  expandvarsFuel env p.length p

/-- Python str.split on a single separator character: empty pieces are
kept, and splitting the empty string yields one empty piece. -/
def splitChar (sep : Char) : List Char → List (List Char)
  | [] => [[]]
  | c :: rest =>
    if c = sep then [] :: splitChar sep rest
    else
      match splitChar sep rest with
      | s :: ss => (c :: s) :: ss
      | [] => [[c]]

/-- Python sep.join of path components. -/
def joinSlash : List (List Char) → List Char
  | [] => []
  | [a] => a
  | a :: b :: t => a ++ '/' :: joinSlash (b :: t)

/-- The two-dot path component. -/
def dotdot : List Char := ['.', '.']

/-- One step of the posixpath.normpath component loop: drop empty and
single-dot components, append ordinary components, and let a dotdot pop the
previous component unless the path is relative and nothing precedes it or
the previous component is itself a dotdot. -/
def npStep (slashes : Nat) (acc : List (List Char)) (comp : List Char) : List (List Char) :=
  if comp = [] ∨ comp = ['.'] then acc
  else if comp ≠ dotdot ∨ (slashes = 0 ∧ acc = []) ∨ acc.getLast? = some dotdot then
    acc ++ [comp]
  else acc.dropLast

/-- The number of initial slashes preserved by posixpath.normpath: one
slash stays one, exactly two stay two, three or more collapse to one. -/
def initialSlashes (p : List Char) : Nat :=
  if p.take 1 = ['/'] then
    if p.take 2 = ['/', '/'] ∧ p.take 3 ≠ ['/', '/', '/'] then 2 else 1
  else 0

/-- posixpath.normpath. -/
def normpathL (p : List Char) : List Char :=
  if p = [] then ['.']
  else
    let s := initialSlashes p
    let comps := (splitChar '/' p).foldl (npStep s) []
    let out := List.replicate s '/' ++ joinSlash comps
    if out = [] then ['.'] else out

/-- Python str.rstrip of slashes, used by posixpath.expanduser on the
looked-up home directory. -/
def rstripSlash (l : List Char) : List Char :=
  (l.reverse.dropWhile (fun c => c == '/')).reverse

/-- The index of the first slash at position one or later, or the length
when there is none (path.find of posixpath.expanduser). -/
def findSlashFrom1 (p : List Char) : Nat :=
  match (p.drop 1).findIdx? (fun c => c == '/') with
  | some j => j + 1
  | none => p.length

/-- posixpath.expanduser: expand a leading tilde (bare tilde from HOME,
falling back to the pwd entry of the current user) or tilde-user (from the
pwd database, leaving the path unchanged for an unknown user). -/
def expanduser (os : OsEnv) (p : List Char) : List Char :=
  if p.take 1 = ['~'] then
    let i := findSlashFrom1 p
    let userhome :=
      if i = 1 then
        match lookupCharsEnv os.env "HOME".data with
        | some h => some h
        | none => some os.uidHome.data
      else
        lookupCharsEnv os.pwdDb ((p.drop 1).take (i - 1))
    match userhome with
    | none => p
    | some h =>
      let res := rstripSlash h ++ p.drop i
      if res = [] then ['/'] else res
  else p

/-- posixpath.isabs: the path starts with a slash. -/
def isabs : List Char → Bool
  | [] => false
  | c :: _ => c == '/' 

/-- posixpath.join for two components. -/
def joinPath (a b : List Char) : List Char :=
  if isabs b then b
  else if a = [] ∨ a.getLast? = some '/' then a ++ b
  else a ++ '/' :: b

/-- posixpath.abspath with an explicit working directory. -/
def abspath (cwd p : List Char) : List Char :=
  if isabs p then normpathL p else normpathL (joinPath cwd p)

/-- Python truthiness of the dir argument of expand_relative_path: None
and the empty string are falsey. -/
def dirTruthy : Option (List Char) → Bool
  | none => false
  | some [] => false
  | some (_ :: _) => true

/-- expand_relative_path from config.py, character level: expand variables,
normalize and expand the user in the path; when the result is not absolute
and a truthy dir was given, do the same to dir and join; finally take the
absolute path against the working directory. -/
def expandRelativePathL (os : OsEnv) (path0 : List Char) (dir0 : Option (List Char)) : List Char :=
  let path := expandvars os.env path0
  let path := normpathL path
  let path := expanduser os path
  let path :=
    if !(isabs path) && dirTruthy dir0 then
      let dir := expandvars os.env (dir0.getD [])
      let dir := normpathL dir
      let dir := expanduser os dir
      joinPath dir path
    else path
  abspath os.cwd.data path

/-- expand_relative_path at the Python string level. -/
def expand_relative_path (os : OsEnv) (path : String) (dir : Option String) : String :=
  String.mk (expandRelativePathL os path.data (dir.map String.data))

/-! ## load_single_file_config and validate_config_path -/

/-- The index of the last occurrence of a character (Python str.rfind,
expressed as an option instead of the minus-one sentinel). -/
def lastIdxOf (p : List Char) (c : Char) : Option Nat :=
  match p.reverse.findIdx? (fun d => d == c) with
  | some j => some (p.length - 1 - j)
  | none => none

/-- posixpath.splitext via genericpath: split at the last dot when it lies
after the last slash, unless every character of the basename before it is a
dot (leading dots are not an extension). -/
def splitextL (p : List Char) : List Char × List Char :=
  let sepIndex := lastIdxOf p '/'
  let dotIndex := lastIdxOf p '.'
  match dotIndex with
  | none => (p, [])
  | some d =>
    let afterSep : Bool :=
      match sepIndex with
      | none => true
      | some si => si < d
    if afterSep then
      let filenameIndex :=
        match sepIndex with
        | none => 0
        | some si => si + 1
      if (List.range' filenameIndex (d - filenameIndex)).any (fun k => !(p.get? k == some '.')) then
        (p.take d, p.drop d)
      else (p, [])
    else (p, [])

/-- The loader classes keyed by extension in load_single_file_config. -/
inductive FileLoaderKind where
  | pyFile
  | jsonFile
deriving DecidableEq

/-- A single-quote character, written by code point to keep quoting
uniform inside message literals. -/
def sQuote : String := String.mk [Char.ofNat 39]

/-- The Python rendering of extension_loaders.keys() interpolated into the
invalid-extension message. -/
def supportedExtensionsStr : String :=
  "dict_keys([" ++ sQuote ++ ".py" ++ sQuote ++ ", " ++ sQuote ++ ".json" ++ sQuote ++ "])"

/-- The ConfigException message of load_single_file_config. -/
def invalidExtensionMsg (config_path : List Char) : List Char :=
  ("invalid config file extension (must be in ".data
    ++ supportedExtensionsStr.data ++ ") in file ".data) ++ config_path

/-- load_single_file_config from config.py: choose the loader class
strictly by the extension of the path, raising a ConfigException for any
extension other than .py and .json; the file itself is only opened by the
returned loader, never on the error path. -/
def load_single_file_config (config_path : List Char) : Except (List Char) FileLoaderKind :=
  let extension := (splitextL config_path).2
  if extension = ".py".data then Except.ok .pyFile
  else if extension = ".json".data then Except.ok .jsonFile
  else Except.error (invalidExtensionMsg config_path)

/-- The Python string interpolation of the config_dir value into the
ConfigFileNotFound message: None renders as the four letters None. -/
def pyShowOptStr : Option (List Char) → List Char
  | none => "None".data
  | some d => d

/-- The ConfigFileNotFound message of validate_config_path (at that point
the config_path variable already holds the expanded path). -/
def configPathNotFoundMsg (expanded : List Char) (config_dir : Option (List Char)) : List Char :=
  "config_path ".data ++ expanded
    ++ " does not exist under config_dir ".data ++ pyShowOptStr config_dir

/-- validate_config_path from config.py: a falsey config_path returns None;
otherwise the path is expanded against config.BaseConfig.config_dir and
checked against the filesystem (modelled as the list of existing paths),
raising ConfigFileNotFound with the expanded path and the dir on failure.
A Config section stored at config_dir would crash the Python expansion and
never occurs in a completed run; it is read as an absent dir here. -/
def validate_config_path (os : OsEnv) (fs : List (List Char)) (config_path : List Char)
    (config : CEntries) : Except (List Char) (Option (List Char)) :=
  if config_path = [] then Except.ok none
  else
    let config_dir : Option (List Char) :=
      match get2 config "BaseConfig" "config_dir" with
      | some (.leaf d) => some d.data
      | _ => none
    let expanded := expandRelativePathL os config_path config_dir
    if expanded ∈ fs then Except.ok (some expanded)
    else Except.error (configPathNotFoundMsg expanded config_dir)

/-! ## The trait cross-validators -/

/-- Modelled from the spec: TraitValidation.not_falsey lives in the helper
module of the repository, which is not among the provided sources; per the
specification a field validated this way must be non-empty rather than
set-but-blank, so not_falsey raises on a falsey (empty) value and otherwise
returns nothing. -/
def TraitValidation.not_falsey (value : String) (name : String) : Except String Unit :=
  if value == "" then Except.error ("falsey value in " ++ name) else Except.ok ()

/-- Modelled from the spec: TraitValidation.path_exists from the missing
helper module checks that the proposed path exists on disk and raises
otherwise. -/
def TraitValidation.path_exists (fs : List (List Char)) (value : String) : Except String Unit :=
  if value.data ∈ fs then Except.ok () else Except.error ("path does not exist: " ++ value)

/-- XeroApiConfig rsa_key_path cross-validator: checks existence and
returns the proposal, which traitlets stores as the trait value. -/
def XeroApiConfig._valid_rsa_key_path (fs : List (List Char)) (proposal : String) :
    Except String (Option String) := do
  let _ ← TraitValidation.path_exists fs proposal
  pure (some proposal)

/-- XeroApiConfig consumer_key cross-validator: calls not_falsey and falls
off the end of the function, so Python returns None, which traitlets stores
as the trait value. -/
def XeroApiConfig._valid_consumer_key (proposal : String) : Except String (Option String) := do
  let _ ← TraitValidation.not_falsey proposal "XeroApiConfig.consumer_key"
  pure none

/-- FilterConfig contact_groups cross-validator: calls not_falsey and
implicitly returns None. -/
def FilterConfig._valid_contact_groups (proposal : String) : Except String (Option String) := do
  let _ ← TraitValidation.not_falsey proposal "FilterConfig.contact_groups"
  pure none

/-- FilterConfig states cross-validator: calls not_falsey and implicitly
returns None. -/
def FilterConfig._valid_states (proposal : String) : Except String (Option String) := do
  let _ ← TraitValidation.not_falsey proposal "FilterConfig.states"
  pure none

/-- FilterConfig countries cross-validator: calls not_falsey and implicitly
returns None. -/
def FilterConfig._valid_countries (proposal : String) : Except String (Option String) := do
  let _ ← TraitValidation.not_falsey proposal "FilterConfig.countries"
  pure none

/-! ## The schema registry: RichConfigurable.trait_argparse_aliases

The four Configurable classes of config.py are modelled as static data
(name plus declared traits).  getmembers returns class members sorted by
name, so the registration order of aliases is the alphabetical order of
trait names within each class.
-/

/-- Lexicographic comparison of character lists, the order Python sorted
uses on strings of ASCII names. -/
def charsLe : List Char → List Char → Bool
  | [], _ => true
  | _ :: _, [] => false
  | a :: as, b :: bs => if a < b then true else if b < a then false else charsLe as bs

/-- The default value of a traitlets trait: a string for Unicode traits, an
integer for Integer traits.  In Python an integer never equals the empty
string, and text_type renders it in decimal. -/
inductive TraitDefault where
  | str (s : String)
  | int (n : Int)
deriving DecidableEq

/-- text_type applied to the default value. -/
def TraitDefault.textType : TraitDefault → String
  | .str s => s
  | .int n => toString n

/-- The Python test default_value not equal to the empty string. -/
def TraitDefault.neEmptyString : TraitDefault → Bool
  | .str s => !(s == "")
  | .int _ => true

/-- A declared trait: its name, default, help text and the metadata kwargs
(switch override and metavar).  In traitlets, help is an attribute, not
metadata, so it never reaches the alias add_kwargs. -/
structure TraitDecl where
  name : String
  defaultValue : TraitDefault
  help : String
  switch : Option String := none
  metavar : String
deriving DecidableEq

/-- A Configurable subclass: class name plus declared traits in source
order. -/
structure ConfigClass where
  name : String
  traits : List TraitDecl
deriving DecidableEq

/-- The config and parent Instance traits inherited from Configurable,
visible to getmembers and explicitly skipped by trait_argparse_aliases. -/
def inheritedTraits : List TraitDecl :=
  [ { name := "config", defaultValue := .str "", help := "", metavar := "" }
  , { name := "parent", defaultValue := .str "", help := "", metavar := "" } ]

/-- Insert a trait into a name-sorted list (insertion step of sorting by
member name, as getmembers does). -/
def insertByName (t : TraitDecl) : List TraitDecl → List TraitDecl
  | [] => [t]
  | u :: r => if charsLe u.name.data t.name.data then u :: insertByName t r else t :: u :: r

/-- Sort traits by name, the order in which getmembers yields members. -/
def sortTraits (l : List TraitDecl) : List TraitDecl :=
  l.foldr insertByName []

/-- re.sub of underscore by hyphen on a field name. -/
def hyphenate (s : String) : String :=
  String.mk (s.data.map (fun c => if c = '_' then '-' else c))

/-- Python str.lower for ASCII class names. -/
def lowerStr (s : String) : String :=
  String.mk (s.data.map Char.toLower)

/-- The alias values dict built per trait: the resolved trait, optional
explicit argparse args, extra keyword args, and the owning section.  The
keys this dict can carry are fixed in config.py, so it is modelled as a
structure of options. -/
structure AliasValues where
  trait : String
  add_args : Option (List String) := none
  add_kwargs : Option (List (String × String)) := none
  sectionName : Option String := none
deriving DecidableEq

/-- The per-flag extras dict (flag values minus the value entry), and also
the per-alias extras dict (alias values minus the trait entry). -/
structure ExtraSpec where
  add_args : Option (List String)
  add_kwargs : Option (List (String × String))
  sectionName : Option String
deriving DecidableEq

/-- Emptiness of the leftover dict, the Python truthiness test after the
trait or value entry was popped. -/
def ExtraSpec.isEmptyDict (e : ExtraSpec) : Bool :=
  e.add_args.isNone && e.add_kwargs.isNone && e.sectionName.isNone

/-- The alias values dict after popping trait. -/
def AliasValues.extras (v : AliasValues) : ExtraSpec :=
  { add_args := v.add_args, add_kwargs := v.add_kwargs, sectionName := v.sectionName }

/-- The flag values dict of get_argparse_loader: the value entry is the
pair of a partial config and a help string; the rest mirrors
AliasValues. -/
structure FlagValues where
  value : CEntries × String
  add_args : Option (List String) := none
  add_kwargs : Option (List (String × String)) := none
  sectionName : Option String := none
deriving DecidableEq

/-- The flag values dict after popping value. -/
def FlagValues.extras (v : FlagValues) : ExtraSpec :=
  { add_args := v.add_args, add_kwargs := v.add_kwargs, sectionName := v.sectionName }

/-- Repeated dict assignment: fold a pair list into a dict, later pairs
overwriting earlier ones at equal keys (both the aliases dict built inside
trait_argparse_aliases and dict.update in get_argparse_loader). -/
def foldSetKey {α : Type} (acc : List (String × α)) (ps : List (String × α)) : List (String × α) :=
  ps.foldl (fun a p => setKeyL a p.1 p.2) acc

/-- The alias key of a trait: the declared switch, or the hyphenated
name. -/
def aliasKeyOf (t : TraitDecl) : String :=
  t.switch.getD (hyphenate t.name)

/-- The alias dict entry of a trait: metadata minus switch as add_kwargs, a
stringified default when the default is not the empty string, the qualified
trait name, and the lowercased class name as section. -/
def aliasValueOf (cls : ConfigClass) (t : TraitDecl) : AliasValues :=
  let kw0 := [("metavar", t.metavar)]
  let kw := if t.defaultValue.neEmptyString then kw0 ++ [("default", t.defaultValue.textType)] else kw0
  { trait := cls.name ++ "." ++ t.name
    add_kwargs := some kw
    sectionName := some (lowerStr cls.name) }

/-- The sequence of alias assignments performed by the loop of
trait_argparse_aliases: traits in getmembers (sorted) order, skipping the
config and parent linkage traits. -/
def aliasPairs (cls : ConfigClass) : List (String × AliasValues) :=
  (sortTraits (inheritedTraits ++ cls.traits)).filterMap
    (fun t =>
      if t.name = "config" ∨ t.name = "parent" then none
      else some (aliasKeyOf t, aliasValueOf cls t))

/-- RichConfigurable.trait_argparse_aliases: build the alias dict of a
class by performing the assignments in order. -/
def trait_argparse_aliases (cls : ConfigClass) : List (String × AliasValues) :=
  foldSetKey [] (aliasPairs cls)

/-! ## RichKVArgParseConfigLoader -/

/-- The loader state after RichKVArgParseConfigLoader init: the plain
alias dict handed to the superclass, the alias extension dict, the plain
flags dict (value and help per flag), and the flag extension dict. -/
structure LoaderState where
  aliases : List (String × String)
  alias_extensions : List (String × ExtraSpec)
  flags : List (String × (CEntries × String))
  flag_extensions : List (String × ExtraSpec)
deriving DecidableEq

/-- RichKVArgParseConfigLoader init.  The aliases loop pops trait into the
superclass dict and stores nonempty leftovers in alias_extensions.  The
flags loop pops value, but stores nonempty leftovers under the leftover
loop variable alias of the aliases loop, that is under the key of the last
alias processed, not under the flag name; when no alias was processed that
variable is unbound and Python raises NameError, modelled as none. -/
def richKVInit (aliases : List (String × AliasValues)) (flags : List (String × FlagValues)) :
    Option LoaderState := do
  let super_aliases := aliases.map (fun p => (p.1, p.2.trait))
  let alias_extensions := aliases.foldl
    (fun acc p =>
      if (AliasValues.extras p.2).isEmptyDict then acc
      else setKeyL acc p.1 (AliasValues.extras p.2)) []
  let lastAlias := (aliases.map Prod.fst).getLast?
  let super_flags := flags.map (fun p => (p.1, p.2.value))
  let flag_extensions ← flags.foldlM
    (fun acc p =>
      if (FlagValues.extras p.2).isEmptyDict then some acc
      else
        match lastAlias with
        | some a => some (setKeyL acc a (FlagValues.extras p.2))
        | none => none)
    []
  pure { aliases := super_aliases, alias_extensions := alias_extensions,
         flags := super_flags, flag_extensions := flag_extensions }

/-- The argparse actions used by the loader. -/
inductive ArgAction where
  | store
  | appendConst
deriving DecidableEq

/-- One parser.add_argument call: the positional switch spellings and the
keyword arguments, with the non-string const kept apart. -/
structure ArgSpec where
  switches : List String
  dest : String
  action : ArgAction
  defaultVal : Option String
  const : Option CEntries
  kwargs : List (String × String)
deriving DecidableEq

/-- The add_argument call registered for one alias by _add_arguments:
explicit add_args from the extensions when present, otherwise single dash
for one-letter keys and double dash otherwise; kwargs are dest and type
updated with the extension add_kwargs, plus optional nargs when the key
collides with a flag name. -/
def buildAliasArgSpec (st : LoaderState) (key dest : String) : ArgSpec :=
  let ext := lookupL st.alias_extensions key
  let add_args0 := (ext.bind (fun e => e.add_args)).getD []
  let add_args :=
    if add_args0 = [] then (if key.length = 1 then ["-" ++ key] else ["--" ++ key]) else add_args0
  let kw := foldSetKey [("dest", dest), ("type", "text_type")] ((ext.bind (fun e => e.add_kwargs)).getD [])
  let kw := if hasKeyL st.flags key then setKeyL kw "nargs" "?" else kw
  { switches := add_args
    dest := (lookupL kw "dest").getD ""
    action := .store
    defaultVal := lookupL kw "default"
    const := none
    kwargs := kw }

/-- The add_argument call registered for one flag by _add_arguments:
explicit add_args from the flag extensions when present (which the init bug
makes unreachable for the flag names), otherwise dash spellings derived
from the key; action append_const collecting the flag value under the
_flags dest. -/
def buildFlagArgSpec (st : LoaderState) (key : String) (value : CEntries) (helpStr : String) : ArgSpec :=
  let ext := lookupL st.flag_extensions key
  let add_args0 := (ext.bind (fun e => e.add_args)).getD []
  let add_args :=
    if add_args0 = [] then (if key.length = 1 then ["-" ++ key] else ["--" ++ key]) else add_args0
  let kw := foldSetKey [("dest", "_flags"), ("action", "append_const"), ("help", helpStr)]
    ((ext.bind (fun e => e.add_kwargs)).getD [])
  { switches := add_args
    dest := (lookupL kw "dest").getD ""
    action := .appendConst
    defaultVal := none
    const := some value
    kwargs := kw }

/-- _add_arguments of RichKVArgParseConfigLoader: register one option per
alias, then one per flag, except that flags whose name collides with an
alias only record their value in alias_flags. -/
def _add_arguments (st : LoaderState) : List ArgSpec × List (String × CEntries) :=
  let aliasSpecs := st.aliases.map (fun p => buildAliasArgSpec st p.1 p.2)
  let alias_flags := st.flags.foldl
    (fun acc p =>
      match lookupL st.aliases p.1 with
      | some dest => setKeyL acc dest p.2.1
      | none => acc) []
  let flagSpecs := st.flags.filterMap
    (fun p => if hasKeyL st.aliases p.1 then none else some (buildFlagArgSpec st p.1 p.2.1 p.2.2))
  (aliasSpecs ++ flagSpecs, alias_flags)

/-! ## get_argparse_loader -/

/-- Modelled from the spec: PKG_NAME comes from the package init module,
which is not among the provided sources; the package directory is named
xero_map_gen. -/
def PKG_NAME : String := "xero_map_gen"

/-- argparse.SUPPRESS, the marker used as help of hidden options. -/
def SUPPRESS : String := "==SUPPRESS=="

def XeroApiConfigClass : ConfigClass :=
  { name := "XeroApiConfig"
    traits :=
      [ { name := "rsa_key_path", defaultValue := .str "",
          help := "The path to the Xero API RSA key file",
          switch := some "xero-key-path", metavar := "PATH" }
      , { name := "consumer_key", defaultValue := .str "",
          help := "The Xero API Consumer Key",
          switch := some "xero-consumer-key", metavar := "KEY" } ] }

def LogConfigClass : ConfigClass :=
  { name := "LogConfig"
    traits :=
      [ { name := "stream_log_level", defaultValue := .str "WARNING",
          help := "Set custom message output level",
          switch := some "verbosity", metavar := "LEVEL" }
      , { name := "file_log_level", defaultValue := .str "DEBUG",
          help := SUPPRESS, metavar := "LEVEL" }
      , { name := "log_dir", defaultValue := .str "",
          help := "Directory containing log files", metavar := "PATH" }
      , { name := "log_path", defaultValue := .str (PKG_NAME ++ ".log"),
          help := SUPPRESS, metavar := "PATH" } ] }

def BaseConfigClass : ConfigClass :=
  { name := "BaseConfig"
    traits :=
      [ { name := "contact_limit", defaultValue := .int 0,
          help := "Limit the number of contacts downloaded from the API", metavar := "LIMIT" }
      , { name := "config_dir", defaultValue := .str "",
          help := "Directory containing config files", metavar := "PATH" }
      , { name := "config_path", defaultValue := .str "",
          help := "Load extra config from file relative to config_dir if provided", metavar := "PATH" }
      , { name := "data_dir", defaultValue := .str "",
          help := "Directory to dump data", metavar := "PATH" }
      , { name := "dump_path", defaultValue := .str "contacts.csv",
          help := "Location where CSV data is dumped relative to data_dir if provided", metavar := "PATH" } ] }

/-- The pipe character in single quotes as it appears in the filter help
texts. -/
def pipeInQuotes : String := sQuote ++ "|" ++ sQuote

def FilterConfigClass : ConfigClass :=
  { name := "FilterConfig"
    traits :=
      [ { name := "contact_groups", defaultValue := .str "",
          help := "Filter by Xero contact group names separated by " ++ pipeInQuotes,
          switch := some "filter-contact-groups", metavar := "\"GROUP1|GROUP2\"" }
      , { name := "states", defaultValue := .str "",
          help := "Filter by main address state. Separate states with " ++ pipeInQuotes,
          switch := some "filter-states", metavar := "\"STATE1|STATE2\"" }
      , { name := "countries", defaultValue := .str "",
          help := "Filter by main address country. Separate countries with " ++ pipeInQuotes,
          switch := some "filter-countries", metavar := "\"COUNTRY1|COUNTRY2\"" } ] }

/-- The partial config applied by a verbosity shortcut flag. -/
def shortcutConfig (level : String) : CEntries :=
  .cons "LogConfig" (.sec (.cons "stream_log_level" (.leaf level) .nil)) .nil

/-- The flags dict literal of get_argparse_loader. -/
def xmgFlags : List (String × FlagValues) :=
  [ ("debug", { value := (shortcutConfig "DEBUG", "display debug messages"),
                add_args := some ["-d", "--debug"], sectionName := some "logging" })
  , ("verbose", { value := (shortcutConfig "INFO", "display extra information messages"),
                  add_args := some ["-v", "--verbose"], sectionName := some "logging" })
  , ("quiet", { value := (shortcutConfig "ERROR", "suppress warning messages"),
                add_args := some ["-q", "--quiet"], sectionName := some "logging" }) ]

/-- The aliases dict of get_argparse_loader: dict.update of the four class
alias dicts in declaration order. -/
def xmgAliases : List (String × AliasValues) :=
  [XeroApiConfigClass, LogConfigClass, BaseConfigClass, FilterConfigClass].foldl
    (fun acc cls => foldSetKey acc (trait_argparse_aliases cls)) []

/-- get_argparse_loader from config.py. -/
def get_argparse_loader : Option LoaderState :=
  richKVInit xmgAliases xmgFlags

/-- The loader get_argparse_loader actually builds (its construction
succeeds; see the registration theorems). -/
def xmgLoaderState : LoaderState :=
  get_argparse_loader.getD { aliases := [], alias_extensions := [], flags := [], flag_extensions := [] }

/-! ## Parsing an argument vector

Only exact matches of registered switch tokens are modelled (the claims
exercise no abbreviation, no equals-sign forms and no positionals).  The
parser is created with argument_default SUPPRESS, so only options carrying
an explicit default populate the namespace when absent from argv.
-/

/-- The argparse namespace after parse_known_args plus the collected
extras: string assignments per dest, the append_const accumulator for
_flags (absent when no flag switch was seen), and unrecognized tokens. -/
structure ParsedData where
  assignments : List (String × String)
  flagsAcc : Option (List CEntries)
  extra : List String
deriving DecidableEq

/-- The namespace defaults: dests of store options that declare an explicit
default. -/
def initNamespace (specs : List ArgSpec) : List (String × String) :=
  specs.foldl
    (fun acc sp =>
      match sp.action, sp.defaultVal with
      | .store, some d => setKeyL acc sp.dest d
      | _, _ => acc) []

/-- The registered option matching a token. -/
def findSpecFor (specs : List ArgSpec) (tok : String) : Option ArgSpec :=
  specs.find? (fun sp => sp.switches.contains tok)

/-- Processing of the token list: a flag switch appends its const to the
_flags accumulator in token order; a store switch consumes the next token
as its value (argparse errors out when it is missing); unrecognized tokens
are collected as extras by parse_known_args. -/
def parseArgs (specs : List ArgSpec) : List String → ParsedData → Option ParsedData
  | [], pd => some pd
  | tok :: rest, pd =>
    match findSpecFor specs tok with
    | some sp =>
      match sp.action with
      | .appendConst =>
        parseArgs specs rest
          { pd with flagsAcc := some ((pd.flagsAcc.getD []) ++ [sp.const.getD .nil]) }
      | .store =>
        match rest with
        | v :: rest2 =>
          parseArgs specs rest2 { pd with assignments := setKeyL pd.assignments sp.dest v }
        | [] => none
    | none => parseArgs specs rest { pd with extra := pd.extra ++ [tok] }

/-- traitlets _exec_config_str: expand the user in the right-hand side and
assign it at the dotted destination (literal_eval of numerals is not
distinguished: values are stored as their source text, and every dest in
this program has exactly one dot). -/
def _exec_config_str (os : OsEnv) (config : CEntries) (lhs rhs : String) : Option CEntries :=
  let rhs2 := String.mk (expanduser os rhs.data)
  match splitChar '.' lhs.data with
  | [s, f] => set2 config (String.mk s) (String.mk f) (.leaf rhs2)
  | _ => none

/-- Python dict.update of two config sections (plain per-key assignment,
used by _load_flag, which deliberately avoids clobbering whole
sections). -/
def dictUpdateE : CEntries → CEntries → CEntries
  | old, .nil => old
  | old, .cons k v r => dictUpdateE (setE old k v) r

/-- traitlets ConfigLoader._load_flag: update each section of the config
from the flag value; reading a section name bound to a leaf, or a flag
whose section value is not a dict, raises in Python. -/
def _load_flag (config : CEntries) : CEntries → Option CEntries
  | .nil => some config
  | .cons s v rest =>
    match v with
    | .sec m =>
      (match lookupE config s with
       | some (.sec old) => _load_flag (setE config s (.sec (dictUpdateE old m))) rest
       | none => _load_flag (setE config s (.sec (dictUpdateE .nil m))) rest
       | some (.leaf _) => none)
    | .leaf _ => none

/-- KVArgParseConfigLoader._convert_to_config: pop _flags from the
namespace, execute the remaining assignments, then load the collected flag
configs in command-line order.  Leftover extras would go to a
KeyValueConfigLoader; no claim exercises that path, so a run with extras is
out of model. -/
def _convert_to_config (os : OsEnv) (pd : ParsedData) : Option CEntries := do
  let subcs := pd.flagsAcc.getD []
  let c1 ← pd.assignments.foldlM (fun acc p => _exec_config_str os acc p.1 p.2) CEntries.nil
  let c2 ← subcs.foldlM (fun acc subc => _load_flag acc subc) c1
  if pd.extra = [] then pure c2 else none

/-- KVArgParseConfigLoader.load_config: build the parser arguments, parse
the argv, convert the namespace to a Config layer. -/
def loaderLoadConfig (os : OsEnv) (st : LoaderState) (argv : List String) : Option CEntries := do
  let specs := (_add_arguments st).1
  let pd ← parseArgs specs argv { assignments := initNamespace specs, flagsAcc := none, extra := [] }
  _convert_to_config os pd

/-- The cli layer produced for an argv by the loader that
get_argparse_loader builds. -/
def xmgCliLoad (os : OsEnv) (argv : List String) : Option CEntries :=
  loaderLoadConfig os xmgLoaderState argv

/-- The three built-in shortcut flags. -/
inductive Shortcut where
  | debug
  | verbose
  | quiet
deriving DecidableEq

/-- The double-dash switch of a shortcut (the spelling the parser actually
registers). -/
def Shortcut.token : Shortcut → String
  | .debug => "--debug"
  | .verbose => "--verbose"
  | .quiet => "--quiet"

/-- The stream log level a shortcut assigns. -/
def Shortcut.level : Shortcut → String
  | .debug => "DEBUG"
  | .verbose => "INFO"
  | .quiet => "ERROR"

/-- A hypothetical schema class with two fields declaring the same switch,
exercising duplicate alias keys at registration. -/
def DupSwitchClass : ConfigClass :=
  { name := "DupSwitchClass"
    traits :=
      [ { name := "field_a", defaultValue := .str "", help := "first field",
          switch := some "same-switch", metavar := "A" }
      , { name := "field_b", defaultValue := .str "", help := "second field",
          switch := some "same-switch", metavar := "B" } ] }

/-! ## Concrete data used by witnesses and counterexamples -/

/-- A plain process environment. -/
def osPlain : OsEnv := { env := [], cwd := "/cwd", uidHome := "/home/u", pwdDb := [] }

/-- An environment whose value for A itself contains a variable reference,
so that variable expansion is not idempotent. -/
def osSelfRef : OsEnv :=
  { env := [("A", "$B"), ("B", "c")], cwd := "/cwd", uidHome := "/home/u", pwdDb := [] }

/-- Witness proto layer: FilterConfig.countries set at the proto level. -/
def protoW : CEntries :=
  .cons "FilterConfig" (.sec (.cons "countries" (.leaf "proto-X") .nil)) .nil

/-- Witness cli layer: credentials (so validation passes), a states filter
that also appears in the file layer, and no countries entry. -/
def cliW : CEntries :=
  .cons "XeroApiConfig"
    (.sec (.cons "rsa_key_path" (.leaf "/keys/xero.pem")
      (.cons "consumer_key" (.leaf "CKEY") .nil)))
    (.cons "FilterConfig" (.sec (.cons "states" (.leaf "NSW") .nil)) .nil)

/-- Witness file layer: a states filter that the cli layer overrides and a
countries filter that survives (set in proto and file, absent from cli). -/
def fileW : CEntries :=
  .cons "FilterConfig"
    (.sec (.cons "states" (.leaf "QLD") (.cons "countries" (.leaf "AU") .nil)))
    .nil

/-- The resolved config of the witness run of load_config. -/
def resolvedW : RichConfig :=
  (load_config protoW cliW (fun _ => fileW)).getD { entries := .nil, sources := [] }

/-- Witness merged config for the validator: both credentials present. -/
def credsOkW : CEntries :=
  .cons "XeroApiConfig"
    (.sec (.cons "rsa_key_path" (.leaf "/keys/xero.pem")
      (.cons "consumer_key" (.leaf "CKEY") .nil)))
    .nil

/-- Witness config handing a config_dir to validate_config_path. -/
def dirConfigW : CEntries :=
  .cons "BaseConfig" (.sec (.cons "config_dir" (.leaf "/base") .nil)) .nil

/-- Witness filesystem for validate_config_path. -/
def fsW : List (List Char) := ["/base/conf.json".data]

/-! ## Lemmas about the config dictionaries -/

theorem CEntries.inductionOn {motive : CEntries → Prop} (e : CEntries)
    (nil : motive CEntries.nil)
    (cons : ∀ k v r, motive r → motive (CEntries.cons k v r)) : motive e :=
  match e with
  | .nil => nil
  | .cons k v r => cons k v r (CEntries.inductionOn r nil cons)

theorem lookupE_setE (e : CEntries) (key : String) (v : CVal) (q : String) :
    lookupE (setE e key v) q = if key = q then some v else lookupE e q := by
  induction e using CEntries.inductionOn with
  | nil => simp only [setE, lookupE]
  | cons k w r ih =>
    simp only [setE]
    by_cases hk : k = key
    · subst hk
      rw [if_pos rfl]
      by_cases hq : k = q <;> simp [lookupE, hq]
    · rw [if_neg hk]
      by_cases hq : k = q
      · subst hq
        have hkq : ¬ (key = k) := fun h => hk h.symm
        simp [lookupE, hkq]
      · simp [lookupE, hq, ih]

theorem lookupE_eq_none_of_hasKeyE {e : CEntries} {k : String} (h : hasKeyE e k = false) :
    lookupE e k = none := by
  unfold hasKeyE at h
  cases hl : lookupE e k with
  | none => rfl
  | some v => rw [hl] at h; simp at h

theorem wfEntries_cons {k : String} {v : CVal} {r : CEntries}
    (h : wfEntries (.cons k v r) = true) :
    hasKeyE r k = false ∧ wfVal v = true ∧ wfEntries r = true := by
  simp only [wfEntries, Bool.and_eq_true, Bool.not_eq_true'] at h
  exact ⟨h.1.1, h.1.2, h.2⟩

theorem wfVal_of_lookupE {e : CEntries} {q : String} {v : CVal}
    (he : wfEntries e = true) (h : lookupE e q = some v) : wfVal v = true := by
  induction e using CEntries.inductionOn with
  | nil => simp [lookupE] at h
  | cons k w r ih =>
    obtain ⟨_, hw, hr⟩ := wfEntries_cons he
    by_cases hk : k = q
    · simp only [lookupE, if_pos hk] at h
      cases h
      exact hw
    · simp only [lookupE, if_neg hk] at h
      exact ih hr h

theorem keysNodupE_cons {k : String} {v : CVal} {r : CEntries}
    (h : keysNodupE (.cons k v r) = true) :
    hasKeyE r k = false ∧ keysNodupE r = true := by
  simp only [keysNodupE, Bool.and_eq_true, Bool.not_eq_true'] at h
  exact h

theorem keysNodupE_of_wfEntries {e : CEntries} (h : wfEntries e = true) :
    keysNodupE e = true := by
  induction e using CEntries.inductionOn with
  | nil => rfl
  | cons k v r ih =>
    obtain ⟨h1, _, h3⟩ := wfEntries_cons h
    simp [keysNodupE, h1, ih h3]

theorem mergeVal_leaf (w : CVal) (s : String) : mergeVal w (.leaf s) = .leaf s := by
  cases w <;> rfl

theorem get2_of_lookupE_sec {c : CEntries} {s : String} {mb : CEntries}
    (hbs : lookupE c s = some (.sec mb)) (f : String) : get2 c s f = lookupE mb f := by
  unfold get2; rw [hbs]

theorem get2_of_lookupE_none {c : CEntries} {s : String}
    (hbs : lookupE c s = none) (f : String) : get2 c s f = none := by
  unfold get2; rw [hbs]

theorem get2_of_lookupE_leaf {c : CEntries} {s : String} {t : String}
    (hbs : lookupE c s = some (.leaf t)) (f : String) : get2 c s f = none := by
  unfold get2; rw [hbs]

theorem lookupE_mergeList (a b : CEntries) (q : String) (hb : keysNodupE b = true) :
    lookupE (mergeList a b) q =
      match lookupE b q with
      | none => lookupE a q
      | some v =>
        some (match lookupE a q with
              | some w => mergeVal w v
              | none => v) := by
  induction b using CEntries.inductionOn generalizing a with
  | nil => simp [mergeList, lookupE]
  | cons k v r ih =>
    obtain ⟨hk0, hr⟩ := keysNodupE_cons hb
    have hstep : mergeList a (.cons k v r)
        = mergeList (setE a k (match lookupE a k with
                               | some w => mergeVal w v
                               | none => v)) r := rfl
    rw [hstep, ih _ hr]
    by_cases hq : k = q
    · subst hq
      rw [lookupE_eq_none_of_hasKeyE hk0, lookupE_setE]
      simp [lookupE]
    · rw [lookupE_setE]
      simp only [lookupE, if_neg hq]

theorem lookupE_mergeList_none {a b : CEntries} {q : String} (hb : keysNodupE b = true)
    (hq : lookupE b q = none) : lookupE (mergeList a b) q = lookupE a q := by
  have h := lookupE_mergeList a b q hb
  rw [hq] at h
  exact h

theorem lookupE_mergeList_right {a b : CEntries} {q : String} {v : CVal}
    (hb : keysNodupE b = true) (hbq : lookupE b q = some v) (haq : lookupE a q = none) :
    lookupE (mergeList a b) q = some v := by
  have h := lookupE_mergeList a b q hb
  rw [hbq, haq] at h
  exact h

theorem lookupE_mergeList_both {a b : CEntries} {q : String} {v w : CVal}
    (hb : keysNodupE b = true) (hbq : lookupE b q = some v) (haq : lookupE a q = some w) :
    lookupE (mergeList a b) q = some (mergeVal w v) := by
  have h := lookupE_mergeList a b q hb
  rw [hbq, haq] at h
  exact h

theorem wfEntries_of_sec_lookup {b : CEntries} {s : String} {mb : CEntries}
    (hb : wfEntries b = true) (hbs : lookupE b s = some (.sec mb)) :
    wfEntries mb = true := by
  have hv := wfVal_of_lookupE hb hbs
  simpa [wfVal] using hv

theorem get2_mergeList_right (a b : CEntries) (s f : String) (v : String)
    (hb : wfEntries b = true) (h : get2 b s f = some (.leaf v)) :
    get2 (mergeList a b) s f = some (.leaf v) := by
  have hnb := keysNodupE_of_wfEntries hb
  cases hbs : lookupE b s with
  | none => rw [get2_of_lookupE_none hbs] at h; cases h
  | some bv =>
    cases bv with
    | leaf t => rw [get2_of_lookupE_leaf hbs] at h; cases h
    | sec mb =>
      rw [get2_of_lookupE_sec hbs] at h
      have hmb := wfEntries_of_sec_lookup hb hbs
      cases has : lookupE a s with
      | none =>
        have hm := lookupE_mergeList_right hnb hbs has
        rw [get2_of_lookupE_sec hm, h]
      | some av =>
        have hm := lookupE_mergeList_both hnb hbs has
        cases av with
        | leaf t =>
          rw [get2_of_lookupE_sec hm, h]
        | sec ma =>
          rw [show mergeVal (CVal.sec ma) (CVal.sec mb) = CVal.sec (mergeList ma mb) from rfl] at hm
          rw [get2_of_lookupE_sec hm]
          cases haf : lookupE ma f with
          | none => exact lookupE_mergeList_right (keysNodupE_of_wfEntries hmb) h haf
          | some w =>
            rw [lookupE_mergeList_both (keysNodupE_of_wfEntries hmb) h haf, mergeVal_leaf]

theorem get2_mergeList_absent (a b : CEntries) (s f : String)
    (hb : wfEntries b = true) (habs : get2 b s f = none) (hlf : leafAt b s = false) :
    get2 (mergeList a b) s f = get2 a s f := by
  have hnb := keysNodupE_of_wfEntries hb
  cases hbs : lookupE b s with
  | none =>
    have hm := lookupE_mergeList_none (a := a) hnb hbs
    unfold get2
    rw [hm]
  | some bv =>
    cases bv with
    | leaf t => simp [leafAt, hbs] at hlf
    | sec mb =>
      rw [get2_of_lookupE_sec hbs] at habs
      have hmb := wfEntries_of_sec_lookup hb hbs
      cases has : lookupE a s with
      | none =>
        have hm := lookupE_mergeList_right hnb hbs has
        rw [get2_of_lookupE_sec hm, get2_of_lookupE_none has, habs]
      | some av =>
        have hm := lookupE_mergeList_both hnb hbs has
        cases av with
        | leaf t =>
          rw [show mergeVal (CVal.leaf t) (CVal.sec mb) = CVal.sec mb from rfl] at hm
          rw [get2_of_lookupE_sec hm, get2_of_lookupE_leaf has, habs]
        | sec ma =>
          rw [show mergeVal (CVal.sec ma) (CVal.sec mb) = CVal.sec (mergeList ma mb) from rfl] at hm
          rw [get2_of_lookupE_sec hm, get2_of_lookupE_sec has]
          exact lookupE_mergeList_none (keysNodupE_of_wfEntries hmb) habs

theorem contains2_eq_isSome (c : CEntries) (s f : String) :
    contains2 c s f = (get2 c s f).isSome := by
  unfold contains2 get2
  cases lookupE c s with
  | none => rfl
  | some v => cases v <;> rfl

theorem set2_spec {c : CEntries} {s f : String} {v : CVal} {c2 : CEntries}
    (h : set2 c s f v = some c2) :
    get2 c2 s f = some v
    ∧ (∀ s2 f2, ¬(s2 = s ∧ f2 = f) → get2 c2 s2 f2 = get2 c s2 f2) := by
  unfold set2 at h
  cases hcs : lookupE c s with
  | none =>
    rw [hcs] at h
    cases h
    have hl : lookupE (setE c s (CVal.sec (.cons f v .nil))) s
        = some (CVal.sec (.cons f v .nil)) := by
      rw [lookupE_setE]; simp
    constructor
    · rw [get2_of_lookupE_sec hl]
      simp [lookupE]
    · intro s2 f2 hne
      by_cases hs : s2 = s
      · subst hs
        have hf : ¬ (f = f2) := fun hf => hne ⟨rfl, hf.symm⟩
        rw [get2_of_lookupE_sec hl, get2_of_lookupE_none hcs]
        simp [lookupE, hf]
      · have hl2 : lookupE (setE c s (CVal.sec (.cons f v .nil))) s2 = lookupE c s2 := by
          rw [lookupE_setE, if_neg (fun hss => hs hss.symm)]
        unfold get2
        rw [hl2]
  | some cv =>
    cases cv with
    | leaf t => rw [hcs] at h; cases h
    | sec m =>
      rw [hcs] at h
      cases h
      have hl : lookupE (setE c s (CVal.sec (setE m f v))) s
          = some (CVal.sec (setE m f v)) := by
        rw [lookupE_setE]; simp
      constructor
      · rw [get2_of_lookupE_sec hl, lookupE_setE]
        simp
      · intro s2 f2 hne
        by_cases hs : s2 = s
        · subst hs
          have hf : ¬ (f = f2) := fun hf => hne ⟨rfl, hf.symm⟩
          rw [get2_of_lookupE_sec hl, get2_of_lookupE_sec hcs, lookupE_setE, if_neg hf]
        · have hl2 : lookupE (setE c s (CVal.sec (setE m f v))) s2 = lookupE c s2 := by
            rw [lookupE_setE, if_neg (fun hss => hs hss.symm)]
          unfold get2
          rw [hl2]

theorem pullForwardField_spec {cli : CEntries} {s f : String} {acc acc2 : CEntries}
    (h : pullForwardField cli s f acc = some acc2) :
    get2 acc2 s f = (if contains2 cli s f = true then get2 cli s f else get2 acc s f)
    ∧ (∀ s2 f2, ¬(s2 = s ∧ f2 = f) → get2 acc2 s2 f2 = get2 acc s2 f2) := by
  unfold pullForwardField at h
  by_cases hc : contains2 cli s f = true
  · rw [if_pos hc] at h
    obtain ⟨hset, hother⟩ := set2_spec h
    refine ⟨?_, hother⟩
    rw [if_pos hc, hset]
    rw [contains2_eq_isSome] at hc
    cases hg : get2 cli s f with
    | none => rw [hg] at hc; cases hc
    | some gv => rfl
  · rw [if_neg hc] at h
    cases h
    exact ⟨by rw [if_neg hc], fun _ _ _ => rfl⟩

theorem pullForward_steps {entries cli mid : CEntries}
    (h : pullForward entries cli = some mid) :
    ∃ e1 e2, pullForwardField cli "BaseConfig" "config_path" entries = some e1
      ∧ pullForwardField cli "BaseConfig" "config_dir" e1 = some e2
      ∧ pullForwardField cli "LogConfig" "stream_log_level" e2 = some mid := by
  have h2 : Option.bind (pullForwardField cli "BaseConfig" "config_path" entries)
      (fun e1 => Option.bind (pullForwardField cli "BaseConfig" "config_dir" e1)
        (fun e2 => pullForwardField cli "LogConfig" "stream_log_level" e2)) = some mid := h
  cases h1 : pullForwardField cli "BaseConfig" "config_path" entries with
  | none => rw [h1] at h2; cases h2
  | some e1 =>
    have h3 : Option.bind (pullForwardField cli "BaseConfig" "config_dir" e1)
        (fun e2 => pullForwardField cli "LogConfig" "stream_log_level" e2) = some mid := by
      rw [h1] at h2; exact h2
    cases hb : pullForwardField cli "BaseConfig" "config_dir" e1 with
    | none => rw [hb] at h3; cases h3
    | some e2 =>
      have h4 : pullForwardField cli "LogConfig" "stream_log_level" e2 = some mid := by
        rw [hb] at h3; exact h3
      exact ⟨e1, e2, rfl, hb, h4⟩

theorem pullForward_get2 {entries cli mid : CEntries}
    (h : pullForward entries cli = some mid) :
    (get2 mid "BaseConfig" "config_path"
       = if contains2 cli "BaseConfig" "config_path" = true
         then get2 cli "BaseConfig" "config_path" else get2 entries "BaseConfig" "config_path")
    ∧ (get2 mid "BaseConfig" "config_dir"
       = if contains2 cli "BaseConfig" "config_dir" = true
         then get2 cli "BaseConfig" "config_dir" else get2 entries "BaseConfig" "config_dir")
    ∧ (get2 mid "LogConfig" "stream_log_level"
       = if contains2 cli "LogConfig" "stream_log_level" = true
         then get2 cli "LogConfig" "stream_log_level" else get2 entries "LogConfig" "stream_log_level")
    ∧ (∀ s f, ¬(s = "BaseConfig" ∧ f = "config_path")
        → ¬(s = "BaseConfig" ∧ f = "config_dir")
        → ¬(s = "LogConfig" ∧ f = "stream_log_level")
        → get2 mid s f = get2 entries s f) := by
  obtain ⟨e1, e2, h1, hb, h3⟩ := pullForward_steps h
  obtain ⟨p1, o1⟩ := pullForwardField_spec h1
  obtain ⟨p2, o2⟩ := pullForwardField_spec hb
  obtain ⟨p3, o3⟩ := pullForwardField_spec h3
  refine ⟨?_, ?_, ?_, ?_⟩
  · rw [o3 _ _ (by decide), o2 _ _ (by decide), p1]
  · rw [o3 _ _ (by decide), p2, o1 _ _ (by decide)]
  · rw [p3, o2 _ _ (by decide), o1 _ _ (by decide)]
  · intro s f hn1 hn2 hn3
    rw [o3 _ _ hn3, o2 _ _ hn2, o1 _ _ hn1]

theorem load_config_entries {proto cli : CEntries} {fl : CEntries → CEntries}
    {cfg : RichConfig} {mid : CEntries}
    (hmid : pullForward (protoPhase proto) cli = some mid)
    (hrun : load_config proto cli fl = some cfg) :
    cfg.entries = mergeList (mergeList mid (fl mid)) cli := by
  have hstep : load_config proto cli fl
      = (match validate_config (mergeList (mergeList mid (fl mid)) cli) with
         | .ok _ => some { entries := mergeList (mergeList mid (fl mid)) cli,
                           sources := [("proto", proto), ("file", fl mid), ("cli", cli)] }
         | .error _ => none) := by
    unfold load_config
    rw [hmid]
    rfl
  rw [hstep] at hrun
  cases hv : validate_config (mergeList (mergeList mid (fl mid)) cli) with
  | ok u => rw [hv] at hrun; cases hrun; rfl
  | error e => rw [hv] at hrun; cases hrun

theorem leafAt_false_of_topSections {c : CEntries} (h : topSections c = true) (s : String) :
    leafAt c s = false := by
  induction c using CEntries.inductionOn with
  | nil => rfl
  | cons k v r ih =>
    simp only [topSections, Bool.and_eq_true] at h
    unfold leafAt lookupE
    by_cases hk : k = s
    · rw [if_pos hk]
      cases v with
      | leaf t => simp at h
      | sec m => rfl
    · rw [if_neg hk]
      exact ih h.2

/-! ## Claim theorems -/

/-- C1: for every run of load_config that completes normally, the resolved
config obeys the merge precedence proto before file before cli: a leaf
field set in both the file layer and the cli layer ends up with the cli
value; a leaf field set in both proto and file and not set in cli ends up
with the file value; and merging of nested section maps is recursive per
key (a field of an accumulated section survives merging a layer whose same
section lacks that field), never a wholesale replacement of the section. -/
theorem C1_merge_precedence
    (proto cli : CEntries) (fl : CEntries → CEntries) (cfg : RichConfig)
    (mid file : CEntries) (s f : String)
    (hcliwf : wfEntries cli = true) (hclitop : topSections cli = true)
    (hfilewf : wfEntries file = true)
    (hmid : pullForward (protoPhase proto) cli = some mid)
    (hfile : fl mid = file)
    (hrun : load_config proto cli fl = some cfg) :
    (∀ vf vc, get2 file s f = some (.leaf vf) → get2 cli s f = some (.leaf vc) →
       get2 cfg.entries s f = some (.leaf vc))
    ∧ (∀ vp vf, get2 proto s f = some (.leaf vp) → get2 file s f = some (.leaf vf) →
       get2 cli s f = none → get2 cfg.entries s f = some (.leaf vf))
    ∧ (∀ (x y : CEntries) (v : CVal) (m : CEntries), wfEntries y = true →
       get2 x s f = some v → lookupE y s = some (.sec m) → lookupE m f = none →
       get2 (mergeList x y) s f = some v) := by
  have hent : cfg.entries = mergeList (mergeList mid file) cli := by
    rw [← hfile]
    exact load_config_entries hmid hrun
  refine ⟨?_, ?_, ?_⟩
  · intro vf vc hvf hvc
    rw [hent]
    exact get2_mergeList_right _ cli s f vc hcliwf hvc
  · intro vp vf hvp hvf hnone
    rw [hent]
    have hlf : leafAt cli s = false := leafAt_false_of_topSections hclitop s
    rw [get2_mergeList_absent _ cli s f hcliwf hnone hlf]
    exact get2_mergeList_right _ file s f vf hfilewf hvf
  · intro x y v m hywf hx hys hmf
    have hny := keysNodupE_of_wfEntries hywf
    cases hxs : lookupE x s with
    | none => rw [get2_of_lookupE_none hxs] at hx; cases hx
    | some xv =>
      cases xv with
      | leaf t => rw [get2_of_lookupE_leaf hxs] at hx; cases hx
      | sec mx =>
        rw [get2_of_lookupE_sec hxs] at hx
        have hm := lookupE_mergeList_both hny hys hxs
        rw [show mergeVal (CVal.sec mx) (CVal.sec m) = CVal.sec (mergeList mx m) from rfl] at hm
        rw [get2_of_lookupE_sec hm]
        have hmwf := wfEntries_of_sec_lookup hywf hys
        rw [lookupE_mergeList_none (keysNodupE_of_wfEntries hmwf) hmf]
        exact hx

/-- Witness for C1 at a concrete run: the states filter set by both file
and cli resolves to the cli value, and the countries filter set by proto
and file but not cli resolves to the file value. -/
theorem C1_merge_precedence_witness :
    get2 resolvedW.entries "FilterConfig" "states" = some (.leaf "NSW")
    ∧ get2 resolvedW.entries "FilterConfig" "countries" = some (.leaf "AU") := by
  constructor
  · exact (C1_merge_precedence protoW cliW (fun _ => fileW) resolvedW
      (protoPhase protoW) fileW "FilterConfig" "states"
      (by decide) (by decide) (by decide) rfl rfl rfl).1 "QLD" "NSW" (by decide) (by decide)
  · exact (C1_merge_precedence protoW cliW (fun _ => fileW) resolvedW
      (protoPhase protoW) fileW "FilterConfig" "countries"
      (by decide) (by decide) (by decide) rfl rfl rfl).2.1
      "proto-X" "AU" (by decide) (by decide) (by decide)

/-- C2: before the file layer is resolved and merged, exactly the
cli-supplied values of BaseConfig.config_path, BaseConfig.config_dir and
LogConfig.stream_log_level, each only when present in the parsed cli layer,
are copied into the accumulating config (every other field still holds its
proto-phase value), and the file loader is applied to exactly that
pulled-forward config, whose merge with the file and cli layers is the
resolved config. -/
theorem C2_pull_forward_cli_fields
    (proto cli mid : CEntries)
    (hmid : pullForward (protoPhase proto) cli = some mid) :
    (get2 mid "BaseConfig" "config_path"
       = if contains2 cli "BaseConfig" "config_path" = true
         then get2 cli "BaseConfig" "config_path"
         else get2 (protoPhase proto) "BaseConfig" "config_path")
    ∧ (get2 mid "BaseConfig" "config_dir"
       = if contains2 cli "BaseConfig" "config_dir" = true
         then get2 cli "BaseConfig" "config_dir"
         else get2 (protoPhase proto) "BaseConfig" "config_dir")
    ∧ (get2 mid "LogConfig" "stream_log_level"
       = if contains2 cli "LogConfig" "stream_log_level" = true
         then get2 cli "LogConfig" "stream_log_level"
         else get2 (protoPhase proto) "LogConfig" "stream_log_level")
    ∧ (∀ s f, ¬(s = "BaseConfig" ∧ f = "config_path")
        → ¬(s = "BaseConfig" ∧ f = "config_dir")
        → ¬(s = "LogConfig" ∧ f = "stream_log_level")
        → get2 mid s f = get2 (protoPhase proto) s f)
    ∧ (∀ fl cfg, load_config proto cli fl = some cfg
        → cfg.entries = mergeList (mergeList mid (fl mid)) cli) := by
  obtain ⟨g1, g2, g3, g4⟩ := pullForward_get2 hmid
  exact ⟨g1, g2, g3, g4, fun fl cfg hrun => load_config_entries hmid hrun⟩

/-- Witness for C2 at a concrete cli layer that supplies a config_path:
the pulled-forward config holds the cli value for it. -/
theorem C2_pull_forward_cli_fields_witness :
    get2 ((pullForward (protoPhase CEntries.nil)
        (CEntries.cons "BaseConfig"
          (.sec (.cons "config_path" (.leaf "cli.json") .nil)) .nil)).getD .nil)
      "BaseConfig" "config_path"
    = if contains2 (CEntries.cons "BaseConfig"
          (.sec (.cons "config_path" (.leaf "cli.json") .nil)) .nil)
        "BaseConfig" "config_path" = true
      then get2 (CEntries.cons "BaseConfig"
          (.sec (.cons "config_path" (.leaf "cli.json") .nil)) .nil)
        "BaseConfig" "config_path"
      else get2 (protoPhase CEntries.nil) "BaseConfig" "config_path" :=
  (C2_pull_forward_cli_fields CEntries.nil
    (CEntries.cons "BaseConfig" (.sec (.cons "config_path" (.leaf "cli.json") .nil)) .nil)
    ((pullForward (protoPhase CEntries.nil)
      (CEntries.cons "BaseConfig" (.sec (.cons "config_path" (.leaf "cli.json") .nil)) .nil)).getD .nil)
    rfl).1

theorem infix_middle (pre mid post : List Char) : mid <:+: pre ++ (mid ++ post) :=
  ⟨pre, post, by simp⟩

/-- C8: validate_config raises the ConfigException naming the Xero API
credential requirement exactly when at least one of
XeroApiConfig.rsa_key_path and XeroApiConfig.consumer_key is unset or the
empty string (stated for configs whose credential fields, when present, are
plain string values, as every completed run produces); when both are set
non-empty it returns normally.  The embedding consumes the config by value
and returns no config, mirroring that the source only reads it. -/
theorem C8_validate_config (config : CEntries)
    (hshape : ∀ f m, get2 config "XeroApiConfig" f ≠ some (CVal.sec m)) :
    (validate_config config = Except.ok ()
      ↔ ((∃ v, get2 config "XeroApiConfig" "rsa_key_path" = some (.leaf v) ∧ v ≠ "")
         ∧ (∃ v, get2 config "XeroApiConfig" "consumer_key" = some (.leaf v) ∧ v ≠ "")))
    ∧ ((∃ msg, validate_config config = Except.error msg)
      ↔ ¬((∃ v, get2 config "XeroApiConfig" "rsa_key_path" = some (.leaf v) ∧ v ≠ "")
          ∧ (∃ v, get2 config "XeroApiConfig" "consumer_key" = some (.leaf v) ∧ v ≠ "")))
    ∧ (∀ msg, validate_config config = Except.error msg → "Xero API".data <:+: msg.data) := by
  have htr : ∀ f2, pyTruthy (get2 config "XeroApiConfig" f2) = true
      ↔ (∃ v, get2 config "XeroApiConfig" f2 = some (.leaf v) ∧ v ≠ "") := by
    intro f2
    cases hg : get2 config "XeroApiConfig" f2 with
    | none => simp [pyTruthy]
    | some cv =>
      cases cv with
      | leaf v => simp [pyTruthy]
      | sec m => exact absurd hg (hshape f2 m)
  unfold validate_config
  by_cases hcond : (pyTruthy (get2 config "XeroApiConfig" "rsa_key_path")
      && pyTruthy (get2 config "XeroApiConfig" "consumer_key")) = true
  · rw [if_pos hcond]
    rw [Bool.and_eq_true] at hcond
    refine ⟨?_, ?_, ?_⟩
    · simp only [true_iff, iff_true_intro rfl]
      exact ⟨(htr _).1 hcond.1, (htr _).1 hcond.2⟩
    · constructor
      · rintro ⟨msg, hmsg⟩; cases hmsg
      · intro hno; exact absurd ⟨(htr _).1 hcond.1, (htr _).1 hcond.2⟩ hno
    · intro msg hmsg; cases hmsg
  · rw [if_neg hcond]
    rw [Bool.and_eq_true] at hcond
    have hnot : ¬((∃ v, get2 config "XeroApiConfig" "rsa_key_path" = some (.leaf v) ∧ v ≠ "")
        ∧ (∃ v, get2 config "XeroApiConfig" "consumer_key" = some (.leaf v) ∧ v ≠ "")) := by
      intro hboth
      exact hcond ⟨(htr _).2 hboth.1, (htr _).2 hboth.2⟩
    refine ⟨?_, ?_, ?_⟩
    · constructor
      · intro h; cases h
      · intro hboth; exact absurd hboth hnot
    · exact ⟨fun _ => hnot, fun _ => ⟨_, rfl⟩⟩
    · intro msg hmsg
      cases hmsg
      exact ⟨"To connect to the ".data, ", you must either specify a Xero API consumer key or a config file containing such a key".data, by decide⟩

/-- Witness for C8: a config with both credentials non-empty passes
validation, and the theorem applies to it. -/
theorem C8_validate_config_witness :
    validate_config credsOkW = Except.ok () := by
  have hsh : ∀ f m, get2 credsOkW "XeroApiConfig" f ≠ some (CVal.sec m) := by
    intro f m h
    have hgs : get2 credsOkW "XeroApiConfig" f
        = lookupE (CEntries.cons "rsa_key_path" (CVal.leaf "/keys/xero.pem")
            (CEntries.cons "consumer_key" (CVal.leaf "CKEY") CEntries.nil)) f :=
      get2_of_lookupE_sec (show lookupE credsOkW "XeroApiConfig"
        = some (CVal.sec (CEntries.cons "rsa_key_path" (CVal.leaf "/keys/xero.pem")
            (CEntries.cons "consumer_key" (CVal.leaf "CKEY") CEntries.nil))) from rfl) f
    rw [hgs] at h
    simp only [lookupE] at h
    split at h
    · simp_all
    · split at h <;> simp_all [lookupE]
  exact ((C8_validate_config credsOkW hsh).1).2
    ⟨⟨"/keys/xero.pem", rfl, by decide⟩, ⟨"CKEY", rfl, by decide⟩⟩

/-- C10: the cross-validators for consumer_key, contact_groups, states and
countries call not_falsey and fall off the end of the Python function, so
they return None, which traitlets stores as the value; only the
rsa_key_path validator returns its proposal. -/
theorem C10_validators_return_none (p : String) (fs : List (List Char))
    (hp : p ≠ "") (hfs : p.data ∈ fs) :
    XeroApiConfig._valid_consumer_key p = Except.ok none
    ∧ FilterConfig._valid_contact_groups p = Except.ok none
    ∧ FilterConfig._valid_states p = Except.ok none
    ∧ FilterConfig._valid_countries p = Except.ok none
    ∧ XeroApiConfig._valid_rsa_key_path fs p = Except.ok (some p) := by
  have hb : (p == "") = false := by
    simp [hp]
  refine ⟨?_, ?_, ?_, ?_, ?_⟩ <;>
    simp [XeroApiConfig._valid_consumer_key, FilterConfig._valid_contact_groups,
      FilterConfig._valid_states, FilterConfig._valid_countries,
      XeroApiConfig._valid_rsa_key_path, TraitValidation.not_falsey,
      TraitValidation.path_exists, hb, hfs]

/-- Witness for C10 at a concrete non-empty proposal. -/
theorem C10_validators_return_none_witness :
    XeroApiConfig._valid_consumer_key "CKEY" = Except.ok none
    ∧ XeroApiConfig._valid_rsa_key_path ["/keys/xero.pem".data] "/keys/xero.pem"
      = Except.ok (some "/keys/xero.pem") := by
  have h := C10_validators_return_none "/keys/xero.pem" ["/keys/xero.pem".data]
    (by decide) (by simp)
  refine ⟨?_, h.2.2.2.2⟩
  exact (C10_validators_return_none "CKEY" ["CKEY".data] (by decide) (by simp)).1

/-- C6: load_single_file_config selects its loader strictly by file
extension, accepting exactly .py and .json; for any other extension it
raises a ConfigException whose message names the supported extension set
and the offending path; no loader (which alone would read the file) is
produced on that path. -/
theorem C6_extension_dispatch (p : List Char) :
    ((splitextL p).2 = ".py".data → load_single_file_config p = Except.ok FileLoaderKind.pyFile)
    ∧ ((splitextL p).2 = ".json".data
        → load_single_file_config p = Except.ok FileLoaderKind.jsonFile)
    ∧ ((splitextL p).2 ≠ ".py".data → (splitextL p).2 ≠ ".json".data →
        (load_single_file_config p = Except.error (invalidExtensionMsg p)
         ∧ ".py".data <:+: invalidExtensionMsg p
         ∧ ".json".data <:+: invalidExtensionMsg p
         ∧ p <:+: invalidExtensionMsg p)) := by
  refine ⟨?_, ?_, ?_⟩
  · intro h
    unfold load_single_file_config
    rw [h, if_pos rfl]
  · intro h
    unfold load_single_file_config
    rw [h, if_neg (by decide), if_pos rfl]
  · intro h1 h2
    refine ⟨?_, ?_, ?_, ?_⟩
    · unfold load_single_file_config
      rw [if_neg h1, if_neg h2]
    · exact List.IsInfix.trans (by decide)
        (List.IsPrefix.isInfix (List.prefix_append _ p))
    · exact List.IsInfix.trans (by decide)
        (List.IsPrefix.isInfix (List.prefix_append _ p))
    · exact List.IsSuffix.isInfix (List.suffix_append _ p)

/-- Witness for C6: a yaml path takes the error branch with the message
containing the supported set and the path, and json selects the JSON
loader. -/
theorem C6_extension_dispatch_witness :
    load_single_file_config "config.yaml".data
      = Except.error (invalidExtensionMsg "config.yaml".data)
    ∧ load_single_file_config "config.json".data = Except.ok FileLoaderKind.jsonFile := by
  constructor
  · exact ((C6_extension_dispatch "config.yaml".data).2.2 (by decide) (by decide)).1
  · exact (C6_extension_dispatch "config.json".data).2.1 (by decide)

/-- C7: for every non-empty config_path, validate_config_path raises
ConfigFileNotFound exactly when the path, expanded against the configured
BaseConfig.config_dir, does not exist on disk; the raised message contains
both the expanded path and the rendered config_dir it was resolved against;
when the expanded path exists it is returned. -/
theorem C7_validate_config_path (os : OsEnv) (fs : List (List Char))
    (config_path : List Char) (config : CEntries)
    (config_dir : Option (List Char)) (expanded : List Char)
    (hp : config_path ≠ [])
    (hdir : (match get2 config "BaseConfig" "config_dir" with
             | some (.leaf d) => some d.data
             | _ => none) = config_dir)
    (hexp : expandRelativePathL os config_path config_dir = expanded) :
    (expanded ∈ fs
      → validate_config_path os fs config_path config = Except.ok (some expanded))
    ∧ (expanded ∉ fs
      → (validate_config_path os fs config_path config
            = Except.error (configPathNotFoundMsg expanded config_dir)
         ∧ expanded <:+: configPathNotFoundMsg expanded config_dir
         ∧ pyShowOptStr config_dir <:+: configPathNotFoundMsg expanded config_dir))
    ∧ ((∃ msg, validate_config_path os fs config_path config = Except.error msg)
        ↔ expanded ∉ fs) := by
  have hval : validate_config_path os fs config_path config
      = if expanded ∈ fs then Except.ok (some expanded)
        else Except.error (configPathNotFoundMsg expanded config_dir) := by
    unfold validate_config_path
    rw [if_neg hp]
    simp only [hdir, hexp]
  refine ⟨?_, ?_, ?_⟩
  · intro hin
    rw [hval, if_pos hin]
  · intro hout
    refine ⟨by rw [hval, if_neg hout], ?_, ?_⟩
    · exact ⟨"config_path ".data,
        " does not exist under config_dir ".data ++ pyShowOptStr config_dir,
        by simp [configPathNotFoundMsg]⟩
    · simp only [configPathNotFoundMsg]
      exact List.IsSuffix.isInfix (List.suffix_append _ _)
  · constructor
    · rintro ⟨msg, hmsg⟩ hin
      rw [hval, if_pos hin] at hmsg
      cases hmsg
    · intro hout
      exact ⟨_, by rw [hval, if_neg hout]⟩

/-- Witness for C7: a relative path against a configured config_dir that
exists in the filesystem is returned expanded, and the same path against an
empty filesystem raises with the message containing path and dir. -/
theorem C7_validate_config_path_witness :
    validate_config_path osPlain fsW "conf.json".data dirConfigW
      = Except.ok (some "/base/conf.json".data)
    ∧ validate_config_path osPlain [] "conf.json".data dirConfigW
      = Except.error (configPathNotFoundMsg "/base/conf.json".data (some "/base".data)) := by
  constructor
  · exact (C7_validate_config_path osPlain fsW "conf.json".data dirConfigW
      (some "/base".data) "/base/conf.json".data (by decide) rfl rfl).1 (by decide)
  · exact ((C7_validate_config_path osPlain [] "conf.json".data dirConfigW
      (some "/base".data) "/base/conf.json".data (by decide) rfl rfl).2.1 (by simp)).1

theorem lookupL_setKeyL {α : Type} (l : List (String × α)) (key : String) (v : α) (q : String) :
    lookupL (setKeyL l key v) q = if key = q then some v else lookupL l q := by
  induction l with
  | nil => simp only [setKeyL, lookupL]
  | cons p r ih =>
    obtain ⟨k, w⟩ := p
    simp only [setKeyL]
    by_cases hk : k = key
    · subst hk
      rw [if_pos rfl]
      by_cases hq : k = q <;> simp [lookupL, hq]
    · rw [if_neg hk]
      by_cases hq : k = q
      · subst hq
        have hkq : ¬ (key = k) := fun h2 => hk h2.symm
        simp [lookupL, hkq]
      · simp [lookupL, hq, ih]

theorem lookupL_foldSetKey {α : Type} (ps : List (String × α)) (acc : List (String × α))
    (q : String) :
    lookupL (foldSetKey acc ps) q
      = Option.or ((ps.filter (fun p => p.1 = q)).getLast?.map Prod.snd) (lookupL acc q) := by
  induction ps using List.reverseRecOn with
  | nil => simp [foldSetKey]
  | append_singleton ps p ih =>
    have hfold : foldSetKey acc (ps ++ [p]) = setKeyL (foldSetKey acc ps) p.1 p.2 := by
      simp [foldSetKey]
    rw [hfold, lookupL_setKeyL]
    by_cases hq : p.1 = q
    · rw [if_pos hq, List.filter_append]
      simp [hq]
    · rw [if_neg hq, ih, List.filter_append]
      simp [hq]

/-- Counterexample to C4: a class declaring two fields with the same switch
builds its alias mapping with no failure of any kind; the resulting
registry holds a single entry carrying the later field, which silently
overwrote the earlier one. -/
theorem C4_counterexample :
    trait_argparse_aliases DupSwitchClass
      = [("same-switch",
          { trait := "DupSwitchClass.field_b",
            add_kwargs := some [("metavar", "B")],
            sectionName := some "dupswitchclass" })]
    ∧ (lookupL (trait_argparse_aliases DupSwitchClass) "same-switch").map (fun v => v.trait)
      = some "DupSwitchClass.field_b" := by
  constructor <;> rfl

/-- C4 amended: when two fields produce the same alias key, building the
alias mapping does not fail; the dict is built by successive assignment
over the registration sequence, so each key holds the alias dict of the
last field producing it, the later field silently overwriting the
earlier. -/
theorem C4_amended_last_duplicate_wins (cls : ConfigClass) (key : String) :
    lookupL (trait_argparse_aliases cls) key
      = ((aliasPairs cls).filter (fun p => p.1 = key)).getLast?.map Prod.snd := by
  unfold trait_argparse_aliases
  rw [lookupL_foldSetKey]
  cases ((aliasPairs cls).filter (fun p => p.1 = key)).getLast?.map Prod.snd <;> rfl

/-- C3 records a registration bug (the spec states the intent, the code
drops it): the flags dict of get_argparse_loader declares both dash
spellings for each shortcut, but the loader init stores the flag extension
dicts under the leftover aliases-loop variable, that is under the last
alias key filter-states, so _add_arguments finds no extension for any flag
and falls back to the double-dash derivation from the flag name: only
--debug, --verbose and --quiet are registered, and -d, -v, -q are not
registered by any option of the parser. -/
theorem C3_shortcut_registration_bug :
    ((lookupL xmgFlags "debug").map (fun v => v.add_args) = some (some ["-d", "--debug"]))
    ∧ ((lookupL xmgFlags "verbose").map (fun v => v.add_args) = some (some ["-v", "--verbose"]))
    ∧ ((lookupL xmgFlags "quiet").map (fun v => v.add_args) = some (some ["-q", "--quiet"]))
    ∧ get_argparse_loader = some xmgLoaderState
    ∧ xmgLoaderState.flag_extensions.map Prod.fst = ["filter-states"]
    ∧ ((_add_arguments xmgLoaderState).1.filter
        (fun sp => sp.action = ArgAction.appendConst)).map (fun sp => sp.switches)
      = [["--debug"], ["--verbose"], ["--quiet"]]
    ∧ ((_add_arguments xmgLoaderState).1.all
        (fun sp => !(sp.switches.contains "-d")
          && !(sp.switches.contains "-v") && !(sp.switches.contains "-q"))) = true :=
  ⟨rfl, rfl, rfl, rfl, rfl, rfl, rfl⟩

theorem parse_shortcuts_go (toks : List Shortcut) (asg : List (String × String))
    (ex : List String) :
    ∀ l : List CEntries,
    parseArgs (_add_arguments xmgLoaderState).1 (toks.map Shortcut.token)
      { assignments := asg, flagsAcc := some l, extra := ex }
    = some { assignments := asg,
             flagsAcc := some (l ++ toks.map (fun t => shortcutConfig t.level)),
             extra := ex } := by
  induction toks with
  | nil => intro l; simp [parseArgs]
  | cons t ts ih =>
    intro l
    cases t
    · exact Eq.trans (ih (l ++ [shortcutConfig "DEBUG"])) (by simp [Shortcut.level])
    · exact Eq.trans (ih (l ++ [shortcutConfig "INFO"])) (by simp [Shortcut.level])
    · exact Eq.trans (ih (l ++ [shortcutConfig "ERROR"])) (by simp [Shortcut.level])

theorem parse_shortcuts_from_start (t : Shortcut) (ts : List Shortcut) :
    parseArgs (_add_arguments xmgLoaderState).1 ((t :: ts).map Shortcut.token)
      { assignments := initNamespace (_add_arguments xmgLoaderState).1,
        flagsAcc := none, extra := [] }
    = some { assignments := initNamespace (_add_arguments xmgLoaderState).1,
             flagsAcc := some ((t :: ts).map (fun u => shortcutConfig u.level)),
             extra := [] } := by
  cases t
  · exact Eq.trans (parse_shortcuts_go ts _ [] [shortcutConfig "DEBUG"]) (by simp [Shortcut.level])
  · exact Eq.trans (parse_shortcuts_go ts _ [] [shortcutConfig "INFO"]) (by simp [Shortcut.level])
  · exact Eq.trans (parse_shortcuts_go ts _ [] [shortcutConfig "ERROR"]) (by simp [Shortcut.level])

theorem load_flag_shortcut (acc : CEntries) (m : CEntries) (lvl : String)
    (hm : lookupE acc "LogConfig" = some (.sec m)) :
    _load_flag acc (shortcutConfig lvl)
      = some (setE acc "LogConfig" (.sec (setE m "stream_log_level" (.leaf lvl)))) := by
  have h1 : _load_flag acc (shortcutConfig lvl)
      = (match lookupE acc "LogConfig" with
         | some (.sec old) =>
           _load_flag (setE acc "LogConfig"
             (.sec (dictUpdateE old (.cons "stream_log_level" (.leaf lvl) .nil)))) .nil
         | none =>
           _load_flag (setE acc "LogConfig"
             (.sec (dictUpdateE .nil (.cons "stream_log_level" (.leaf lvl) .nil)))) .nil
         | some (.leaf _) => none) := rfl
  rw [h1, hm]
  rfl

theorem load_flag_fold_last (toks : List Shortcut) :
    ∀ t : Shortcut, toks.getLast? = some t →
    ∀ acc m : CEntries, lookupE acc "LogConfig" = some (.sec m) →
    ∃ final, (toks.map (fun u => shortcutConfig u.level)).foldlM
        (fun a sc => _load_flag a sc) acc = some final
      ∧ get2 final "LogConfig" "stream_log_level" = some (.leaf t.level) := by
  induction toks with
  | nil => intro t hlast; cases hlast
  | cons u ts ih =>
    intro t hlast acc m hm
    have hstep := load_flag_shortcut acc m u.level hm
    have hm2 : lookupE (setE acc "LogConfig"
        (.sec (setE m "stream_log_level" (.leaf u.level)))) "LogConfig"
        = some (.sec (setE m "stream_log_level" (.leaf u.level))) := by
      rw [lookupE_setE]; simp
    cases ts with
    | nil =>
      have ht : u = t := by simpa using hlast
      subst ht
      refine ⟨setE acc "LogConfig" (.sec (setE m "stream_log_level" (.leaf u.level))), ?_, ?_⟩
      · simp only [List.map_cons, List.map_nil, List.foldlM_cons, List.foldlM_nil, hstep]
        rfl
      · rw [get2_of_lookupE_sec hm2, lookupE_setE]
        simp
    | cons v rest =>
      have hlast2 : (v :: rest).getLast? = some t := by
        simpa [List.getLast?_cons_cons] using hlast
      obtain ⟨final, hfold, hget⟩ := ih t hlast2 _ _ hm2
      refine ⟨final, ?_, hget⟩
      simp only [List.map_cons, List.foldlM_cons, hstep]
      simpa using hfold

theorem xmgCliLoad_eq (os : OsEnv) (argv : List String) (pdF : ParsedData)
    (c1V final : CEntries)
    (hparse : parseArgs (_add_arguments xmgLoaderState).1 argv
      { assignments := initNamespace (_add_arguments xmgLoaderState).1,
        flagsAcc := none, extra := [] } = some pdF)
    (hex : pdF.extra = [])
    (hc1 : pdF.assignments.foldlM (fun acc p => _exec_config_str os acc p.1 p.2) CEntries.nil
      = some c1V)
    (hfl : (pdF.flagsAcc.getD []).foldlM (fun a sc => _load_flag a sc) c1V = some final) :
    xmgCliLoad os argv = some final := by
  have h0 : xmgCliLoad os argv
      = Option.bind (parseArgs (_add_arguments xmgLoaderState).1 argv
          { assignments := initNamespace (_add_arguments xmgLoaderState).1,
            flagsAcc := none, extra := [] })
        (fun pd => _convert_to_config os pd) := rfl
  rw [h0, hparse]
  show _convert_to_config os pdF = some final
  have h2 : _convert_to_config os pdF
      = Option.bind (pdF.assignments.foldlM
          (fun acc p => _exec_config_str os acc p.1 p.2) CEntries.nil)
          (fun c1 => Option.bind ((pdF.flagsAcc.getD []).foldlM
            (fun a sc => _load_flag a sc) c1)
            (fun c2 => if pdF.extra = [] then pure c2 else none)) := rfl
  rw [h2, hc1]
  show Option.bind ((pdF.flagsAcc.getD []).foldlM (fun a sc => _load_flag a sc) c1V)
      (fun c2 => if pdF.extra = [] then pure c2 else none) = some final
  rw [hfl]
  show (if pdF.extra = [] then pure final else none) = some final
  rw [if_pos hex]
  rfl

/-- C9: when several shortcut flags appear on one command line, their fixed
partial configurations are applied to the cli layer in command-line token
order, later ones overwriting earlier ones on conflicting fields: verbose
then quiet yields stream log level ERROR, quiet then verbose yields INFO,
and in general the level is that of the last shortcut token. -/
theorem C9_shortcut_stacking (os : OsEnv) :
    ((xmgCliLoad os ["--verbose", "--quiet"]).map
        (fun c => get2 c "LogConfig" "stream_log_level") = some (some (.leaf "ERROR")))
    ∧ ((xmgCliLoad os ["--quiet", "--verbose"]).map
        (fun c => get2 c "LogConfig" "stream_log_level") = some (some (.leaf "INFO")))
    ∧ (∀ (toks : List Shortcut) (t : Shortcut), toks.getLast? = some t →
        (xmgCliLoad os (toks.map Shortcut.token)).map
          (fun c => get2 c "LogConfig" "stream_log_level")
        = some (some (.leaf t.level))) := by
  refine ⟨rfl, rfl, ?_⟩
  intro toks t hlast
  cases toks with
  | nil => cases hlast
  | cons t0 ts =>
    have hc1 : (initNamespace (_add_arguments xmgLoaderState).1).foldlM
        (fun acc p => _exec_config_str os acc p.1 p.2) CEntries.nil
        = some (((initNamespace (_add_arguments xmgLoaderState).1).foldlM
            (fun acc p => _exec_config_str os acc p.1 p.2) CEntries.nil).getD .nil) := rfl
    obtain ⟨mV, hmV⟩ : ∃ m, lookupE (((initNamespace (_add_arguments xmgLoaderState).1).foldlM
        (fun acc p => _exec_config_str os acc p.1 p.2) CEntries.nil).getD .nil) "LogConfig"
        = some (.sec m) := ⟨_, rfl⟩
    obtain ⟨final, hfold, hget⟩ :=
      load_flag_fold_last (t0 :: ts) t hlast _ mV hmV
    have hcli : xmgCliLoad os ((t0 :: ts).map Shortcut.token) = some final :=
      xmgCliLoad_eq os ((t0 :: ts).map Shortcut.token)
        { assignments := initNamespace (_add_arguments xmgLoaderState).1,
          flagsAcc := some ((t0 :: ts).map (fun u => shortcutConfig u.level)),
          extra := [] }
        _ final (parse_shortcuts_from_start t0 ts) rfl hc1 hfold
    rw [hcli]
    simp [hget]

/-- Witness for C9 at a concrete token list: a single debug shortcut sets
the level to DEBUG. -/
theorem C9_shortcut_stacking_witness :
    (xmgCliLoad osPlain ["--debug"]).map
      (fun c => get2 c "LogConfig" "stream_log_level") = some (some (.leaf "DEBUG")) :=
  (C9_shortcut_stacking osPlain).2.2 [Shortcut.debug] Shortcut.debug rfl

/-! ## Lemmas on the normpath machinery -/

theorem splitChar_ne_nil (sep : Char) (p : List Char) : splitChar sep p ≠ [] := by
  induction p with
  | nil => simp [splitChar]
  | cons c rest ih =>
    unfold splitChar
    by_cases hc : c = sep
    · simp [hc]
    · rw [if_neg hc]
      cases hs : splitChar sep rest with
      | nil => simp
      | cons s ss => simp

theorem no_sep_in_splitChar (sep : Char) (p : List Char) :
    ∀ c ∈ splitChar sep p, sep ∉ c := by
  induction p with
  | nil =>
    intro c hc
    simp [splitChar] at hc
    simp [hc]
  | cons a rest ih =>
    intro c hc
    unfold splitChar at hc
    by_cases ha : a = sep
    · rw [if_pos ha] at hc
      rcases List.mem_cons.mp hc with h | h
      · simp [h]
      · exact ih c h
    · rw [if_neg ha] at hc
      cases hs : splitChar sep rest with
      | nil => exact absurd hs (splitChar_ne_nil sep rest)
      | cons s ss =>
        rw [hs] at hc
        rcases List.mem_cons.mp hc with h | h
        · subst h
          intro hmem
          rcases List.mem_cons.mp hmem with h2 | h2
          · exact ha h2.symm
          · exact ih s (hs ▸ List.mem_cons_self s ss) h2
        · exact ih c (hs ▸ List.mem_cons.mpr (Or.inr h))

theorem splitChar_sep_cons (sep : Char) (z : List Char) :
    splitChar sep (sep :: z) = [] :: splitChar sep z := by
  simp [splitChar]

theorem splitChar_no_sep {sep : Char} {a : List Char} (h : sep ∉ a) :
    splitChar sep a = [a] := by
  induction a with
  | nil => rfl
  | cons c rest ih =>
    have hc : ¬ (c = sep) := fun hcs => h (hcs ▸ List.mem_cons_self c rest)
    have hr : sep ∉ rest := fun hm => h (List.mem_cons.mpr (Or.inr hm))
    unfold splitChar
    rw [if_neg hc, ih hr]

theorem splitChar_append_sep {sep : Char} {a : List Char} (h : sep ∉ a) (z : List Char) :
    splitChar sep (a ++ sep :: z) = a :: splitChar sep z := by
  induction a with
  | nil => simpa using splitChar_sep_cons sep z
  | cons c rest ih =>
    have hc : ¬ (c = sep) := fun hcs => h (hcs ▸ List.mem_cons_self c rest)
    have hr : sep ∉ rest := fun hm => h (List.mem_cons.mpr (Or.inr hm))
    show splitChar sep (c :: (rest ++ sep :: z)) = (c :: rest) :: splitChar sep z
    simp [splitChar, hc, ih hr]

theorem splitChar_joinSlash {L : List (List Char)} (hns : ∀ c ∈ L, ('/' : Char) ∉ c)
    (hne : L ≠ []) : splitChar '/' (joinSlash L) = L := by
  induction L with
  | nil => exact absurd rfl hne
  | cons a rest ih =>
    cases rest with
    | nil =>
      show splitChar '/' a = [a]
      exact splitChar_no_sep (hns a (List.mem_cons_self a []))
    | cons b t =>
      rw [show joinSlash (a :: b :: t) = a ++ '/' :: joinSlash (b :: t) from rfl]
      rw [splitChar_append_sep (hns a (List.mem_cons_self a (b :: t)))]
      rw [ih (fun c hc => hns c (List.mem_cons.mpr (Or.inr hc))) (by simp)]

theorem splitChar_replicate_slash (s : Nat) (z : List Char) :
    splitChar '/' (List.replicate s '/' ++ z) = List.replicate s [] ++ splitChar '/' z := by
  induction s with
  | zero => simp
  | succ n ih =>
    rw [List.replicate_succ, List.cons_append, splitChar_sep_cons, ih,
      List.replicate_succ, List.cons_append]

theorem mem_of_getLast2 {α : Type} {l : List α} {a : α} (h : l.getLast? = some a) : a ∈ l := by
  induction l with
  | nil => cases h
  | cons x t ih =>
    cases t with
    | nil =>
      simp at h
      simp [h]
    | cons y u =>
      rw [List.getLast?_cons_cons] at h
      exact List.mem_cons.mpr (Or.inr (ih h))

theorem npStep_preserves (s : Nat) (acc : List (List Char)) (comp : List Char)
    (hgood : ∀ c ∈ acc, c ≠ [] ∧ c ≠ ['.'] ∧ ('/' : Char) ∉ c)
    (hdots0 : s = 0 → ∃ k r, acc = List.replicate k dotdot ++ r ∧ dotdot ∉ r)
    (hdots1 : s ≠ 0 → dotdot ∉ acc)
    (hc : ('/' : Char) ∉ comp) :
    (∀ c ∈ npStep s acc comp, c ≠ [] ∧ c ≠ ['.'] ∧ ('/' : Char) ∉ c)
    ∧ (s = 0 → ∃ k r, npStep s acc comp = List.replicate k dotdot ++ r ∧ dotdot ∉ r)
    ∧ (s ≠ 0 → dotdot ∉ npStep s acc comp) := by
  unfold npStep
  by_cases h1 : comp = [] ∨ comp = ['.']
  · rw [if_pos h1]
    exact ⟨hgood, hdots0, hdots1⟩
  · rw [if_neg h1]
    push_neg at h1
    by_cases h2 : comp ≠ dotdot ∨ (s = 0 ∧ acc = []) ∨ acc.getLast? = some dotdot
    · rw [if_pos h2]
      refine ⟨?_, ?_, ?_⟩
      · intro c hcm
        rcases List.mem_append.mp hcm with hm | hm
        · exact hgood c hm
        · rw [List.mem_singleton.mp hm]
          exact ⟨h1.1, h1.2, hc⟩
      · intro hs0
        obtain ⟨k, r, hacc, hr⟩ := hdots0 hs0
        by_cases hcd : comp = dotdot
        · subst hcd
          rcases h2 with h2a | h2b | h2c
          · exact absurd rfl h2a
          · rw [h2b.2]
            exact ⟨1, [], by simp, by simp⟩
          · have hrnil : r = [] := by
              by_contra hrne
              have hlast : acc.getLast? = r.getLast? := by
                rw [hacc]
                exact List.getLast?_append_of_ne_nil _ hrne
              rw [h2c] at hlast
              exact hr (mem_of_getLast2 hlast.symm)
            subst hrnil
            rw [hacc]
            refine ⟨k + 1, [], ?_, by simp⟩
            simp [List.replicate_succ']
        · refine ⟨k, r ++ [comp], ?_, ?_⟩
          · rw [hacc, List.append_assoc]
          · intro hmem
            rcases List.mem_append.mp hmem with hm | hm
            · exact hr hm
            · exact hcd (List.mem_singleton.mp hm).symm
      · intro hs1
        intro hmem
        rcases List.mem_append.mp hmem with hm | hm
        · exact hdots1 hs1 hm
        · have hcd : comp = dotdot := (List.mem_singleton.mp hm).symm
          subst hcd
          rcases h2 with h2a | h2b | h2c
          · exact h2a rfl
          · exact hs1 h2b.1
          · exact hdots1 hs1 (mem_of_getLast2 h2c)
    · rw [if_neg h2]
      refine ⟨?_, ?_, ?_⟩
      · intro c hcm
        exact hgood c (List.dropLast_subset _ hcm)
      · intro hs0
        obtain ⟨k, r, hacc, hr⟩ := hdots0 hs0
        cases hrr : r with
        | nil =>
          subst hrr
          cases k with
          | zero =>
            simp at hacc
            rw [hacc]
            exact ⟨0, [], by simp, by simp⟩
          | succ k2 =>
            rw [hacc]
            refine ⟨k2, [], ?_, by simp⟩
            simp [List.replicate_succ', List.dropLast_concat]
        | cons r0 rt =>
          rw [hacc, hrr]
          refine ⟨k, (r0 :: rt).dropLast, ?_, ?_⟩
          · simp [List.dropLast_append]
          · intro hmem
            exact hr (hrr ▸ List.dropLast_subset _ hmem)
      · intro hs1 hmem
        exact hdots1 hs1 (List.dropLast_subset _ hmem)

theorem npFold_preserves (s : Nat) (comps : List (List Char))
    (hcs : ∀ c ∈ comps, ('/' : Char) ∉ c) :
    ∀ acc : List (List Char),
    (∀ c ∈ acc, c ≠ [] ∧ c ≠ ['.'] ∧ ('/' : Char) ∉ c)
    → (s = 0 → ∃ k r, acc = List.replicate k dotdot ++ r ∧ dotdot ∉ r)
    → (s ≠ 0 → dotdot ∉ acc)
    → ((∀ c ∈ comps.foldl (npStep s) acc, c ≠ [] ∧ c ≠ ['.'] ∧ ('/' : Char) ∉ c)
       ∧ (s = 0 → ∃ k r, comps.foldl (npStep s) acc = List.replicate k dotdot ++ r ∧ dotdot ∉ r)
       ∧ (s ≠ 0 → dotdot ∉ comps.foldl (npStep s) acc)) := by
  induction comps with
  | nil => intro acc h1 h2 h3; exact ⟨h1, h2, h3⟩
  | cons c rest ih =>
    intro acc h1 h2 h3
    have hc : ('/' : Char) ∉ c := hcs c (List.mem_cons_self c rest)
    obtain ⟨p1, p2, p3⟩ := npStep_preserves s acc c h1 h2 h3 hc
    exact ih (fun d hd => hcs d (List.mem_cons.mpr (Or.inr hd))) (npStep s acc c) p1 p2 p3

theorem npFold_fixed_plain (s : Nat) (L : List (List Char))
    (hL : ∀ c ∈ L, c ≠ [] ∧ c ≠ ['.'] ∧ c ≠ dotdot) :
    ∀ A, L.foldl (npStep s) A = A ++ L := by
  induction L with
  | nil => intro A; simp
  | cons c rest ih =>
    intro A
    have hc := hL c (List.mem_cons_self c rest)
    have hstep : npStep s A c = A ++ [c] := by
      unfold npStep
      rw [if_neg (by push_neg; exact ⟨hc.1, hc.2.1⟩), if_pos (Or.inl hc.2.2)]
    rw [List.foldl_cons, hstep, ih (fun d hd => hL d (List.mem_cons.mpr (Or.inr hd)))]
    simp

theorem npFold_fixed_dots (k : Nat) :
    ∀ j, (List.replicate k dotdot).foldl (npStep 0) (List.replicate j dotdot)
      = List.replicate (j + k) dotdot := by
  induction k with
  | zero => intro j; simp
  | succ k2 ih =>
    intro j
    have hstep : npStep 0 (List.replicate j dotdot) dotdot
        = List.replicate (j + 1) dotdot := by
      unfold npStep
      rw [if_neg (by simp [dotdot]), if_pos ?_]
      · simp [List.replicate_succ']
      · cases j with
        | zero => exact Or.inr (Or.inl ⟨rfl, rfl⟩)
        | succ j2 =>
          refine Or.inr (Or.inr ?_)
          simp [List.replicate_succ', List.getLast?_concat]
    rw [List.replicate_succ, List.foldl_cons, hstep, ih (j + 1)]
    congr 1
    omega

theorem npFold_fixed_zero (L : List (List Char))
    (hgood : ∀ c ∈ L, c ≠ [] ∧ c ≠ ['.'] ∧ ('/' : Char) ∉ c)
    (hld : ∃ k r, L = List.replicate k dotdot ++ r ∧ dotdot ∉ r) :
    L.foldl (npStep 0) [] = L := by
  obtain ⟨k, r, rfl, hr⟩ := hld
  rw [List.foldl_append]
  have h1 : (List.replicate k dotdot).foldl (npStep 0) [] = List.replicate k dotdot := by
    have := npFold_fixed_dots k 0
    simpa using this
  rw [h1, npFold_fixed_plain 0 r ?_ (List.replicate k dotdot)]
  intro c hcm
  have hg := hgood c (List.mem_append.mpr (Or.inr hcm))
  exact ⟨hg.1, hg.2.1, fun hce => hr (hce ▸ hcm)⟩

theorem npFold_replicate_nil (s : Nat) (n : Nat) :
    ∀ A : List (List Char), (List.replicate n ([] : List Char)).foldl (npStep s) A = A := by
  induction n with
  | zero => intro A; simp
  | succ n2 ih =>
    intro A
    have hstep : npStep s A [] = A := by
      unfold npStep
      rw [if_pos (Or.inl rfl)]
    rw [List.replicate_succ, List.foldl_cons, hstep, ih A]

theorem joinSlash_cons_ex (c : List Char) (rest : List (List Char)) :
    ∃ z, joinSlash (c :: rest) = c ++ z := by
  cases rest with
  | nil => exact ⟨[], by simp [joinSlash]⟩
  | cons b t => exact ⟨'/' :: joinSlash (b :: t), rfl⟩

theorem initialSlashes_le_two (p : List Char) : initialSlashes p ≤ 2 := by
  unfold initialSlashes
  split
  · split <;> omega
  · omega

theorem normpathL_eq (p : List Char) (hp : p ≠ []) :
    normpathL p = if (List.replicate (initialSlashes p) '/'
        ++ joinSlash ((splitChar '/' p).foldl (npStep (initialSlashes p)) [])) = []
      then ['.'] else List.replicate (initialSlashes p) '/'
        ++ joinSlash ((splitChar '/' p).foldl (npStep (initialSlashes p)) []) := by
  unfold normpathL
  rw [if_neg hp]

theorem normpathL_of_form (s : Nat) (comps : List (List Char))
    (hs2 : s ≤ 2)
    (hgood : ∀ c ∈ comps, c ≠ [] ∧ c ≠ ['.'] ∧ ('/' : Char) ∉ c)
    (hdots0 : s = 0 → ∃ k r, comps = List.replicate k dotdot ++ r ∧ dotdot ∉ r)
    (hdots1 : s ≠ 0 → dotdot ∉ comps)
    (hne : (List.replicate s '/' ++ joinSlash comps) ≠ []) :
    normpathL (List.replicate s '/' ++ joinSlash comps)
      = List.replicate s '/' ++ joinSlash comps := by
  cases comps with
  | nil =>
    have hs0 : s ≠ 0 := by
      intro h
      subst h
      simp [joinSlash] at hne
    interval_cases s
    · exact absurd rfl hs0
    · decide
    · decide
  | cons c rest =>
    have hcg := hgood c (List.mem_cons_self c rest)
    obtain ⟨c0, c', hceq⟩ := List.exists_cons_of_ne_nil hcg.1
    subst hceq
    have hc0 : c0 ≠ '/' := by
      intro h
      exact hcg.2.2 (h ▸ List.mem_cons_self c0 c')
    obtain ⟨z, hjz⟩ := joinSlash_cons_ex (c0 :: c') rest
    have hjz2 : joinSlash ((c0 :: c') :: rest) = c0 :: (c' ++ z) := by
      rw [hjz]
      simp
    have hsq : initialSlashes (List.replicate s '/' ++ joinSlash ((c0 :: c') :: rest)) = s := by
      rw [hjz2]
      interval_cases s
      · show initialSlashes (c0 :: (c' ++ z)) = 0
        unfold initialSlashes
        rw [if_neg (by simp [hc0])]
      · show initialSlashes ('/' :: c0 :: (c' ++ z)) = 1
        unfold initialSlashes
        rw [if_pos (by simp), if_neg (by simp [hc0])]
      · show initialSlashes ('/' :: '/' :: c0 :: (c' ++ z)) = 2
        unfold initialSlashes
        rw [if_pos (by simp), if_pos (by simp [hc0])]
    have hns : ∀ d ∈ (c0 :: c') :: rest, ('/' : Char) ∉ d := fun d hd => (hgood d hd).2.2
    have hsplit : splitChar '/' (List.replicate s '/' ++ joinSlash ((c0 :: c') :: rest))
        = List.replicate s [] ++ ((c0 :: c') :: rest) := by
      rw [splitChar_replicate_slash, splitChar_joinSlash hns (by simp)]
    have hfold : (List.replicate s [] ++ ((c0 :: c') :: rest)).foldl (npStep s) []
        = (c0 :: c') :: rest := by
      rw [List.foldl_append, npFold_replicate_nil]
      by_cases hs0 : s = 0
      · subst hs0
        exact npFold_fixed_zero _ hgood (hdots0 rfl)
      · have h := npFold_fixed_plain s ((c0 :: c') :: rest) ?_ []
        · simpa using h
        · intro d hd
          have hg := hgood d hd
          exact ⟨hg.1, hg.2.1, fun hde => (hdots1 hs0) (hde ▸ hd)⟩
    rw [normpathL_eq _ hne, hsq, hsplit, hfold, if_neg hne]

theorem normpathL_idem (p : List Char) : normpathL (normpathL p) = normpathL p := by
  by_cases hp : p = []
  · subst hp
    decide
  · rw [normpathL_eq p hp]
    by_cases hout : (List.replicate (initialSlashes p) '/'
        ++ joinSlash ((splitChar '/' p).foldl (npStep (initialSlashes p)) [])) = []
    · rw [if_pos hout]
      decide
    · rw [if_neg hout]
      have hcs : ∀ c ∈ splitChar '/' p, ('/' : Char) ∉ c := no_sep_in_splitChar '/' p
      obtain ⟨hg, hd0, hd1⟩ := npFold_preserves (initialSlashes p) (splitChar '/' p) hcs []
        (by intro c hc; cases hc) (fun _ => ⟨0, [], by simp, by simp⟩) (fun _ => by simp)
      exact normpathL_of_form (initialSlashes p) _ (initialSlashes_le_two p) hg hd0 hd1 hout

theorem isabs_normpathL {p : List Char} (h : isabs p = true) :
    isabs (normpathL p) = true := by
  obtain ⟨r, hr⟩ : ∃ r, p = '/' :: r := by
    cases p with
    | nil => cases h
    | cons c r =>
      refine ⟨r, ?_⟩
      have hc : c = '/' := by
        have h2 : (c == '/') = true := h
        exact eq_of_beq h2
      rw [hc]
  have hp : p ≠ [] := by rw [hr]; simp
  have hs1 : 1 ≤ initialSlashes p := by
    unfold initialSlashes
    rw [if_pos (by rw [hr]; simp)]
    split <;> omega
  rw [normpathL_eq p hp]
  by_cases hout : (List.replicate (initialSlashes p) '/'
      ++ joinSlash ((splitChar '/' p).foldl (npStep (initialSlashes p)) [])) = []
  · exfalso
    have h2 := (List.append_eq_nil.mp hout).1
    rw [List.replicate_eq_nil_iff] at h2
    omega
  · rw [if_neg hout]
    obtain ⟨n, hn⟩ : ∃ n, initialSlashes p = n + 1 := ⟨initialSlashes p - 1, by omega⟩
    rw [hn, List.replicate_succ]
    rfl

theorem isabs_joinPath {a : List Char} (b : List Char) (ha : isabs a = true) :
    isabs (joinPath a b) = true := by
  unfold joinPath
  by_cases hb : isabs b = true
  · rw [if_pos hb]
    exact hb
  · rw [if_neg hb]
    obtain ⟨r, hr⟩ : ∃ r, a = '/' :: r := by
      cases a with
      | nil => cases ha
      | cons c r => exact ⟨r, by rw [eq_of_beq (ha : (c == '/') = true)]⟩
    by_cases h2 : a = [] ∨ a.getLast? = some '/'
    · rw [if_pos h2, hr]
      rfl
    · rw [if_neg h2, hr]
      rfl

theorem isabs_abspath {cwd : List Char} (p : List Char) (hc : isabs cwd = true) :
    isabs (abspath cwd p) = true := by
  unfold abspath
  by_cases hp : isabs p = true
  · rw [if_pos hp]
    exact isabs_normpathL hp
  · rw [if_neg hp]
    exact isabs_normpathL (isabs_joinPath p hc)

theorem normpathL_abspath (cwd p : List Char) :
    normpathL (abspath cwd p) = abspath cwd p := by
  unfold abspath
  split
  · exact normpathL_idem p
  · exact normpathL_idem (joinPath cwd p)

theorem expanduser_of_isabs (os : OsEnv) {p : List Char} (h : isabs p = true) :
    expanduser os p = p := by
  obtain ⟨r, hr⟩ : ∃ r, p = '/' :: r := by
    cases p with
    | nil => cases h
    | cons c r => exact ⟨r, by rw [eq_of_beq (h : (c == '/') = true)]⟩
  unfold expanduser
  rw [if_neg (by rw [hr]; simp)]

theorem expandRelativePathL_abspath (os : OsEnv) (p : List Char) (d : Option (List Char)) :
    ∃ x, expandRelativePathL os p d = abspath os.cwd.data x :=
  ⟨_, rfl⟩

theorem isabs_expandRelativePathL (os : OsEnv) (p : List Char) (d : Option (List Char))
    (hcwd : isabs os.cwd.data = true) :
    isabs (expandRelativePathL os p d) = true := by
  obtain ⟨x, hx⟩ := expandRelativePathL_abspath os p d
  rw [hx]
  exact isabs_abspath x hcwd

theorem normpathL_expandRelativePathL (os : OsEnv) (p : List Char) (d : Option (List Char)) :
    normpathL (expandRelativePathL os p d) = expandRelativePathL os p d := by
  obtain ⟨x, hx⟩ := expandRelativePathL_abspath os p d
  rw [hx]
  exact normpathL_abspath os.cwd.data x

theorem expandRelativePathL_stable (os : OsEnv) (r : List Char) (d : Option (List Char))
    (habs : isabs r = true)
    (hvars : expandvars os.env r = r)
    (hnorm : normpathL r = r) :
    expandRelativePathL os r d = r := by
  unfold expandRelativePathL
  simp only [hvars, hnorm, expanduser_of_isabs os habs, habs, Bool.not_true, Bool.false_and,
    Bool.false_eq_true, if_false]
  unfold abspath
  rw [if_pos habs]
  exact hnorm

/-- Counterexample to C5: with an environment whose value for A itself
contains a reference to B, expanding the result again substitutes B, so
expand_relative_path is not idempotent for every path and base
directory. -/
theorem C5_counterexample :
    expand_relative_path osSelfRef (expand_relative_path osSelfRef "$A" (some "/d")) (some "/d")
      ≠ expand_relative_path osSelfRef "$A" (some "/d") := by
  decide

/-- C5 amended: expand_relative_path always returns an absolute, normalized
path (for an absolute working directory), and it is idempotent whenever
re-expanding environment variables in its result leaves the result
unchanged, in particular whenever no environment value itself contains a
variable reference; with self-referential environment values idempotence
can fail. -/
theorem C5_expand_relative_path_amended (os : OsEnv) (p : String) (dir : Option String)
    (hcwd : isabs os.cwd.data = true)
    (hstable : expandvars os.env (expand_relative_path os p dir).data
      = (expand_relative_path os p dir).data) :
    expand_relative_path os (expand_relative_path os p dir) dir
      = expand_relative_path os p dir
    ∧ isabs (expand_relative_path os p dir).data = true
    ∧ normpathL (expand_relative_path os p dir).data
      = (expand_relative_path os p dir).data := by
  have hdata : (expand_relative_path os p dir).data
      = expandRelativePathL os p.data (dir.map String.data) := rfl
  have habs : isabs (expandRelativePathL os p.data (dir.map String.data)) = true :=
    isabs_expandRelativePathL os p.data _ hcwd
  have hnorm := normpathL_expandRelativePathL os p.data (dir.map String.data)
  have hv : expandvars os.env (expandRelativePathL os p.data (dir.map String.data))
      = expandRelativePathL os p.data (dir.map String.data) := hstable
  refine ⟨?_, by rw [hdata]; exact habs, by rw [hdata, hnorm]⟩
  have hst := expandRelativePathL_stable os
    (expandRelativePathL os p.data (dir.map String.data)) (dir.map String.data) habs hv hnorm
  show String.mk (expandRelativePathL os (expand_relative_path os p dir).data
      (dir.map String.data)) = expand_relative_path os p dir
  rw [hdata, hst]
  rfl

/-- Witness for the amended C5 at a concrete run: a relative path against
an absolute dir resolves idempotently and absolutely. -/
theorem C5_expand_relative_path_amended_witness :
    expand_relative_path osPlain (expand_relative_path osPlain "a" (some "/d")) (some "/d")
      = expand_relative_path osPlain "a" (some "/d")
    ∧ isabs (expand_relative_path osPlain "a" (some "/d")).data = true :=
  ⟨(C5_expand_relative_path_amended osPlain "a" (some "/d") (by decide) (by decide)).1,
    (C5_expand_relative_path_amended osPlain "a" (some "/d") (by decide) (by decide)).2.1⟩
